import Mathlib

/-!
# Verification of the golf scheduler core (`golf_scheduler.py`)

Shallow embedding of the core scheduling logic:

* participants are modelled as natural numbers (opaque identifiers);
* the `frozenset((a, b))` pair keys are modelled as normalized ordered pairs
  `(min a b, max a b)` collected in a `Finset (ℕ × ℕ)`;
* `random.shuffle` is modelled by an oracle giving, per attempt, the shuffled
  copy of the roster; theorems quantify over all oracles whose outputs are
  permutations of the roster;
* the inner chunk-scanning `while` loop of `generate_weekly_groups` is
  modelled by `walkF`, a fuel-indexed recursion whose fuel
  (`num_groups + len(remaining)`) is provably never exhausted;
* the attempt loop is `genLoop`, recursing on the remaining attempt budget;
* `create_schedule`'s week loop is `scheduleLoop`;
* the pandas `DataFrame` produced by `format_schedule_to_dataframe` is
  modelled as a list of `Row` records, `""` placeholders as `none`.

The module has two layers, because `golf_scheduler.py` contains an import
bug: its import list (lines 6–10) never imports `itertools`, yet
`check_pair_uniqueness` (line 25) and the pair-recording loop inside
`generate_weekly_groups` (line 51) call `itertools.combinations`.  In the
staged module every evaluation of the pair check therefore raises
`NameError: name 'itertools' is not defined`.

* The *intended model* (`check_pair_uniqueness`, `walkF`,
  `generate_weekly_groups`, `scheduleLoop`, `create_schedule`, …) embeds the
  algorithm as it would run with `import itertools` present — the algorithm
  the surrounding code and the UI copy are written for.  Its theorems carry
  `intended_` names.
* The *staged model* (`check_pair_uniquenessE`, `walkFE`,
  `generate_weekly_groupsE`, `scheduleLoopE`, `create_scheduleE`) embeds the
  module exactly as staged: module-name resolution is explicit
  (`lookupModule`), `itertools` is absent from `importedModules`, and every
  exception propagates as `Except.error`.

The precondition branches of `create_schedule` and the formatter
`format_schedule_to_dataframe` never touch `itertools`; they execute
identically in both layers.
-/

namespace GolfScheduler

/-- `GROUP_SIZE = 4` (module-level configuration constant). -/
def GROUP_SIZE : ℕ := 4

/-- `MAX_ATTEMPTS_PER_WEEK = 3000` (module-level configuration constant). -/
def MAX_ATTEMPTS_PER_WEEK : ℕ := 3000

/-- The key under which the unordered pair `{a, b}` (Python
`frozenset((a, b))`) is stored: the pair normalized into (min, max) order. -/
def pkey (a b : ℕ) : ℕ × ℕ := (min a b, max a b)

/-- `itertools.combinations(l, 2)`: all pairs of elements of `l` taken at two
distinct positions, earlier position first, in lexicographic position order. -/
def combinations2 : List ℕ → List (ℕ × ℕ)
  | [] => []
  | a :: rest => (rest.map fun b => (a, b)) ++ combinations2 rest

/-- `check_pair_uniqueness(group, past_pairs)`: `true` iff no 2-combination of
`group` is already present in `past_pairs`.  This is the intended model of
the function body; the staged module never imports `itertools`, so the real
call raises `NameError` instead — see `check_pair_uniquenessE` below. -/
def check_pair_uniqueness (group : List ℕ) (past_pairs : Finset (ℕ × ℕ)) : Bool :=
  (combinations2 group).all fun ab => decide (pkey ab.1 ab.2 ∉ past_pairs)

/-- The `for a, b in itertools.combinations(candidate, 2): tmp_pairs.add(...)`
loop: insert every 2-combination key of `group` into the pair set (intended
model; the staged loop raises `NameError`, see `addPairsE`). -/
def addPairs (group : List ℕ) (pairs : Finset (ℕ × ℕ)) : Finset (ℕ × ℕ) :=
  (combinations2 group).foldl (fun s ab => insert (pkey ab.1 ab.2) s) pairs

/-- The inner chunk-scanning `while` loop of `generate_weekly_groups`.
`rem` is `remaining[idx:]`, `formed` the number of groups formed so far and
`tmp` the tentative pair set `tmp_pairs`.  The loop runs while
`formed < nG` and `idx + gsize ≤ num_golfers` (i.e. `gsize ≤ rem.length`);
an accepted chunk is appended in sorted order and its pairs recorded in `tmp`;
`idx` advances by `gsize` regardless of acceptance.  The recursion is driven
by a fuel argument; `(nG - formed) + rem.length` units always suffice
(`walkF_fuel_irrelevant`), and the entry point `attempt_once` supplies
`nG + rem.length`. -/
def walkF (nG gsize : ℕ) : ℕ → ℕ → List ℕ → Finset (ℕ × ℕ) →
    List (List ℕ) × Finset (ℕ × ℕ)
  | 0, _, _, tmp => ([], tmp)
  | fuel + 1, formed, rem, tmp =>
    if formed < nG ∧ gsize ≤ rem.length then
      let candidate := rem.take gsize
      if check_pair_uniqueness candidate tmp then
        let res := walkF nG gsize fuel (formed + 1) (rem.drop gsize) (addPairs candidate tmp)
        (candidate.insertionSort (· ≤ ·) :: res.1, res.2)
      else
        walkF nG gsize fuel formed (rem.drop gsize) tmp
    else ([], tmp)

/-- One attempt of `generate_weekly_groups`: scan the shuffled roster copy
`rem` chunk by chunk against the tentative pair set seeded with `past`.
Returns the accepted groups of this attempt and the final tentative pair set. -/
def attempt_once (nG gsize : ℕ) (rem : List ℕ) (past : Finset (ℕ × ℕ)) :
    List (List ℕ) × Finset (ℕ × ℕ) :=
  walkF nG gsize (nG + rem.length) 0 rem past

/-- The `while attempts < MAX_ATTEMPTS_PER_WEEK` retry loop of
`generate_weekly_groups`, recursing on the remaining attempt budget `fuel`.
`shuffles attempt` is the shuffled copy of the roster used by attempt number
`attempt`.  On a successful attempt the function returns the week's groups
together with `past_pairs.update(tmp_pairs)`; a failed attempt leaves `past`
untouched. -/
def genLoop (shuffles : ℕ → List ℕ) (nG gsize : ℕ) :
    ℕ → ℕ → Finset (ℕ × ℕ) → Option (List (List ℕ)) × Finset (ℕ × ℕ)
  | _, 0, past => (none, past)
  | attempt, fuel + 1, past =>
    let res := attempt_once nG gsize (shuffles attempt) past
    if res.1.length = nG then (some res.1, past ∪ res.2)
    else genLoop shuffles nG gsize (attempt + 1) fuel past

/-- `generate_weekly_groups(available_golfers_names, past_pairs,
num_groups_per_week, group_size)`.  The first component is the returned value
(`None` on exhaustion of the attempt budget); the second component is the
value of the caller-shared `past_pairs` set after the call.  Intended model;
the staged semantics is `generate_weekly_groupsE`. -/
def generate_weekly_groups (shuffles : ℕ → List ℕ) (past : Finset (ℕ × ℕ))
    (nG gsize : ℕ) : Option (List (List ℕ)) × Finset (ℕ × ℕ) :=
  genLoop shuffles nG gsize 0 MAX_ATTEMPTS_PER_WEEK past

/-- The outcome message returned by `create_schedule` (second component of its
result tuple), with the data interpolated into the message strings kept as
payloads. -/
inductive Outcome where
  | emptyRoster : Outcome
  | indivisibleRoster (numGolfers gsize : ℕ) : Outcome
  | partialFailure (weekNum maxAttempts : ℕ) : Outcome
  | success (numWeeks : ℕ) : Outcome
deriving DecidableEq, Repr

/-- The `for week_num in range(1, num_weeks + 1)` loop of `create_schedule`:
`weekNum` is the current week number, `weeksLeft` the number of weeks still to
generate, `past` the shared pair history and `acc` the accumulated
`weekly_schedule`. -/
def scheduleLoop (shuffles : ℕ → ℕ → List ℕ) (nG gsize numWeeks : ℕ) :
    ℕ → ℕ → Finset (ℕ × ℕ) → List (List (List ℕ)) →
    List (List (List ℕ)) × Outcome
  | _, 0, _, acc => (acc, .success numWeeks)
  | weekNum, weeksLeft + 1, past, acc =>
    let res := generate_weekly_groups (shuffles weekNum) past nG gsize
    match res.1 with
    | none => (acc, .partialFailure weekNum MAX_ATTEMPTS_PER_WEEK)
    | some wk => scheduleLoop shuffles nG gsize numWeeks (weekNum + 1) weeksLeft res.2 (acc ++ [wk])

/-- `create_schedule(golfer_list, num_weeks, group_size)`.  The first
component is the returned schedule (`None` on a precondition failure, the
accumulated — possibly partial — schedule otherwise); the second is the
outcome message.  The precondition branches are exact for the staged module
too; the generation branch is the intended model (the staged semantics is
`create_scheduleE`). -/
def create_schedule (shuffles : ℕ → ℕ → List ℕ) (golfer_list : List ℕ)
    (num_weeks gsize : ℕ) : Option (List (List (List ℕ))) × Outcome :=
  if golfer_list.isEmpty then (none, .emptyRoster)
  else if golfer_list.length % gsize ≠ 0 then
    (none, .indivisibleRoster golfer_list.length gsize)
  else
    let nG := golfer_list.length / gsize
    let res := scheduleLoop shuffles nG gsize num_weeks 1 num_weeks ∅ []
    (some res.1, res.2)

/-- The unordered pair `{a, b}` occurs inside the group `g`. -/
def PairInGroup (p : ℕ × ℕ) (g : List ℕ) : Prop :=
  ∃ a b, a ∈ g ∧ b ∈ g ∧ a ≠ b ∧ p = pkey a b

/-! ### Basic lemmas about pair keys and 2-combinations -/

theorem pkey_comm (a b : ℕ) : pkey a b = pkey b a := by
  simp [pkey, Prod.ext_iff, Nat.min_comm, Nat.max_comm]

theorem pkey_eq_iff {a b c d : ℕ} :
    pkey a b = pkey c d ↔ (a = c ∧ b = d) ∨ (a = d ∧ b = c) := by
  simp only [pkey, Prod.ext_iff]
  omega

theorem mem_combinations2 {a b : ℕ} {l : List ℕ} :
    (a, b) ∈ combinations2 l → a ∈ l ∧ b ∈ l := by
  induction l with
  | nil => simp [combinations2]
  | cons c rest ih =>
    intro h
    simp only [combinations2, List.mem_append, List.mem_map] at h
    rcases h with ⟨x, hx, hab⟩ | h
    · cases hab
      exact ⟨List.mem_cons_self _ _, List.mem_cons_of_mem _ hx⟩
    · exact ⟨List.mem_cons_of_mem _ (ih h).1, List.mem_cons_of_mem _ (ih h).2⟩

theorem combinations2_of_mem {a b : ℕ} {l : List ℕ} (ha : a ∈ l) (hb : b ∈ l)
    (hne : a ≠ b) : (a, b) ∈ combinations2 l ∨ (b, a) ∈ combinations2 l := by
  induction l with
  | nil => simp at ha
  | cons c rest ih =>
    rcases List.mem_cons.1 ha with rfl | ha'
    · have hb' : b ∈ rest := by
        rcases List.mem_cons.1 hb with rfl | hb'
        · exact absurd rfl hne
        · exact hb'
      left
      simp only [combinations2, List.mem_append, List.mem_map]
      exact Or.inl ⟨b, hb', rfl⟩
    · rcases List.mem_cons.1 hb with rfl | hb'
      · right
        simp only [combinations2, List.mem_append, List.mem_map]
        exact Or.inl ⟨a, ha', rfl⟩
      · rcases ih ha' hb' with h | h
        · left
          simp only [combinations2, List.mem_append]
          exact Or.inr h
        · right
          simp only [combinations2, List.mem_append]
          exact Or.inr h

theorem combinations2_ne_of_nodup {a b : ℕ} {l : List ℕ} (hl : l.Nodup)
    (h : (a, b) ∈ combinations2 l) : a ≠ b := by
  induction l with
  | nil => simp [combinations2] at h
  | cons c rest ih =>
    simp only [combinations2, List.mem_append, List.mem_map] at h
    rcases h with ⟨x, hx, hab⟩ | h
    · cases hab
      intro heq
      exact (List.nodup_cons.1 hl).1 (heq ▸ hx)
    · exact ih (List.nodup_cons.1 hl).2 h

theorem two_le_length_of_mem_combinations2 {ab : ℕ × ℕ} {l : List ℕ}
    (h : ab ∈ combinations2 l) : 2 ≤ l.length := by
  match l with
  | [] => simp [combinations2] at h
  | [a] => simp [combinations2] at h
  | a :: b :: rest => simp

theorem length_combinations2 (l : List ℕ) :
    2 * (combinations2 l).length = l.length * (l.length - 1) := by
  induction l with
  | nil => simp [combinations2]
  | cons a rest ih =>
    simp only [combinations2, List.length_append, List.length_map, List.length_cons]
    have h1 : rest.length + 1 - 1 = rest.length := by omega
    rw [h1]
    have h2 : (rest.length + 1) * rest.length
        = 2 * rest.length + rest.length * (rest.length - 1) := by
      cases rest.length with
      | zero => simp
      | succ m =>
        have : m + 1 - 1 = m := by omega
        rw [this]
        ring
    omega

/-! ### Lemmas about `check_pair_uniqueness` and `addPairs` -/

theorem check_eq_true_iff {g : List ℕ} {past : Finset (ℕ × ℕ)} :
    check_pair_uniqueness g past = true ↔
      ∀ ab ∈ combinations2 g, pkey ab.1 ab.2 ∉ past := by
  simp [check_pair_uniqueness, List.all_eq_true]

theorem check_eq_false_iff {g : List ℕ} {past : Finset (ℕ × ℕ)} :
    check_pair_uniqueness g past = false ↔
      ∃ ab ∈ combinations2 g, pkey ab.1 ab.2 ∈ past := by
  rw [← Bool.not_eq_true, check_eq_true_iff]
  push_neg
  rfl

theorem check_false_two_le {g : List ℕ} {past : Finset (ℕ × ℕ)}
    (h : check_pair_uniqueness g past = false) : 2 ≤ g.length := by
  obtain ⟨ab, hab, -⟩ := check_eq_false_iff.1 h
  exact two_le_length_of_mem_combinations2 hab

private theorem mem_foldl_insert {l : List (ℕ × ℕ)} {s : Finset (ℕ × ℕ)} {p : ℕ × ℕ} :
    p ∈ l.foldl (fun s ab => insert (pkey ab.1 ab.2) s) s ↔
      p ∈ s ∨ ∃ ab ∈ l, p = pkey ab.1 ab.2 := by
  induction l generalizing s with
  | nil => simp
  | cons ab rest ih =>
    simp only [List.foldl_cons, ih, Finset.mem_insert, List.mem_cons]
    constructor
    · rintro ((h | h) | ⟨cd, hcd, h⟩)
      · exact Or.inr ⟨ab, Or.inl rfl, h⟩
      · exact Or.inl h
      · exact Or.inr ⟨cd, Or.inr hcd, h⟩
    · rintro (h | ⟨cd, (rfl | hcd), h⟩)
      · exact Or.inl (Or.inr h)
      · exact Or.inl (Or.inl h)
      · exact Or.inr ⟨cd, hcd, h⟩

theorem mem_addPairs {g : List ℕ} {past : Finset (ℕ × ℕ)} {p : ℕ × ℕ} :
    p ∈ addPairs g past ↔ p ∈ past ∨ ∃ ab ∈ combinations2 g, p = pkey ab.1 ab.2 := by
  simp [addPairs, mem_foldl_insert]

theorem subset_addPairs (g : List ℕ) (past : Finset (ℕ × ℕ)) :
    past ⊆ addPairs g past := fun _ h => mem_addPairs.2 (Or.inl h)

theorem pairInGroup_mem_addPairs {g : List ℕ} {past : Finset (ℕ × ℕ)} {p : ℕ × ℕ}
    (h : PairInGroup p g) : p ∈ addPairs g past := by
  obtain ⟨a, b, ha, hb, hne, rfl⟩ := h
  rcases combinations2_of_mem ha hb hne with hm | hm
  · exact mem_addPairs.2 (Or.inr ⟨(a, b), hm, rfl⟩)
  · exact mem_addPairs.2 (Or.inr ⟨(b, a), hm, pkey_comm a b⟩)

theorem pairInGroup_not_mem_of_check {g : List ℕ} {past : Finset (ℕ × ℕ)} {p : ℕ × ℕ}
    (hc : check_pair_uniqueness g past = true) (h : PairInGroup p g) : p ∉ past := by
  obtain ⟨a, b, ha, hb, hne, rfl⟩ := h
  rcases combinations2_of_mem ha hb hne with hm | hm
  · exact check_eq_true_iff.1 hc (a, b) hm
  · exact pkey_comm a b ▸ check_eq_true_iff.1 hc (b, a) hm

theorem pairInGroup_of_perm {p : ℕ × ℕ} {g g' : List ℕ} (hp : g.Perm g')
    (h : PairInGroup p g) : PairInGroup p g' := by
  obtain ⟨a, b, ha, hb, hne, rfl⟩ := h
  exact ⟨a, b, hp.mem_iff.1 ha, hp.mem_iff.1 hb, hne, rfl⟩

/-! ### Lemmas about the chunk-scanning loop `walkF` -/

theorem walkF_succ (nG gsize fuel formed : ℕ) (rem : List ℕ) (tmp : Finset (ℕ × ℕ)) :
    walkF nG gsize (fuel + 1) formed rem tmp =
      if formed < nG ∧ gsize ≤ rem.length then
        if check_pair_uniqueness (rem.take gsize) tmp then
          ((rem.take gsize).insertionSort (· ≤ ·) ::
              (walkF nG gsize fuel (formed + 1) (rem.drop gsize)
                (addPairs (rem.take gsize) tmp)).1,
            (walkF nG gsize fuel (formed + 1) (rem.drop gsize)
              (addPairs (rem.take gsize) tmp)).2)
        else walkF nG gsize fuel formed (rem.drop gsize) tmp
      else ([], tmp) := rfl

/-- The tentative pair set only grows during the chunk scan. -/
theorem walkF_tmp_subset (nG gsize : ℕ) :
    ∀ fuel formed rem tmp, tmp ⊆ (walkF nG gsize fuel formed rem tmp).2 := by
  intro fuel
  induction fuel with
  | zero => intro formed rem tmp; exact Finset.Subset.refl tmp
  | succ fuel ih =>
    intro formed rem tmp
    rw [walkF_succ]
    split_ifs with hg hc
    · exact (subset_addPairs _ _).trans (ih _ _ _)
    · exact ih _ _ _
    · exact Finset.Subset.refl tmp

/-- Every pair occurring inside an accepted group is recorded in the final
tentative pair set. -/
theorem walkF_groups_recorded (nG gsize : ℕ) :
    ∀ fuel formed rem tmp, ∀ g ∈ (walkF nG gsize fuel formed rem tmp).1,
      ∀ p, PairInGroup p g → p ∈ (walkF nG gsize fuel formed rem tmp).2 := by
  intro fuel
  induction fuel with
  | zero => intro formed rem tmp g hg; simp [walkF] at hg
  | succ fuel ih =>
    intro formed rem tmp g hgmem p hp
    rw [walkF_succ] at hgmem ⊢
    split_ifs at hgmem ⊢ with hg hc
    · rcases List.mem_cons.1 hgmem with rfl | hmem
      · have hp' : PairInGroup p (rem.take gsize) :=
          pairInGroup_of_perm (List.perm_insertionSort _ _) hp
        exact walkF_tmp_subset nG gsize fuel _ _ _ (pairInGroup_mem_addPairs hp')
      · exact ih _ _ _ g hmem p hp
    · exact ih _ _ _ g hgmem p hp
    · simp at hgmem

/-- No pair occurring inside an accepted group was present in the tentative
pair set the scan started from. -/
theorem walkF_groups_fresh (nG gsize : ℕ) :
    ∀ fuel formed rem tmp, ∀ g ∈ (walkF nG gsize fuel formed rem tmp).1,
      ∀ p, PairInGroup p g → p ∉ tmp := by
  intro fuel
  induction fuel with
  | zero => intro formed rem tmp g hg; simp [walkF] at hg
  | succ fuel ih =>
    intro formed rem tmp g hgmem p hp
    rw [walkF_succ] at hgmem
    split_ifs at hgmem with hg hc
    · rcases List.mem_cons.1 hgmem with rfl | hmem
      · have hp' : PairInGroup p (rem.take gsize) :=
          pairInGroup_of_perm (List.perm_insertionSort _ _) hp
        exact pairInGroup_not_mem_of_check hc hp'
      · intro hmem'
        exact ih _ _ _ g hmem p hp (subset_addPairs _ _ hmem')
    · exact ih _ _ _ g hgmem p hp
    · simp at hgmem

/-- Distinct accepted groups of one scan share no pair. -/
theorem walkF_pairwise (nG gsize : ℕ) :
    ∀ fuel formed rem tmp, ((walkF nG gsize fuel formed rem tmp).1).Pairwise
      fun g₁ g₂ => ∀ p, PairInGroup p g₁ → PairInGroup p g₂ → False := by
  intro fuel
  induction fuel with
  | zero => intro formed rem tmp; simp [walkF]
  | succ fuel ih =>
    intro formed rem tmp
    rw [walkF_succ]
    split_ifs with hg hc
    · refine List.Pairwise.cons ?_ (ih _ _ _)
      intro g₂ hg₂ p hp₁ hp₂
      have hp' : PairInGroup p (rem.take gsize) :=
        pairInGroup_of_perm (List.perm_insertionSort _ _) hp₁
      exact walkF_groups_fresh nG gsize fuel _ _ _ g₂ hg₂ p hp₂
        (pairInGroup_mem_addPairs hp')
    · exact ih _ _ _
    · simp

/-- Each accepted group consumes `gsize` roster slots, so at most
`rem.length / gsize` groups can be formed. -/
theorem walkF_length_le (nG gsize : ℕ) (hg : 1 ≤ gsize) :
    ∀ fuel formed rem tmp,
      ((walkF nG gsize fuel formed rem tmp).1).length ≤ rem.length / gsize := by
  intro fuel
  induction fuel with
  | zero => intro formed rem tmp; simp [walkF]
  | succ fuel ih =>
    intro formed rem tmp
    rw [walkF_succ]
    split_ifs with hcond hc
    · have h1 := ih (formed + 1) (rem.drop gsize) (addPairs (rem.take gsize) tmp)
      simp only [List.length_cons, List.length_drop] at h1 ⊢
      rw [Nat.div_eq_sub_div (by omega) hcond.2]
      omega
    · have h1 := ih formed (rem.drop gsize) tmp
      simp only [List.length_drop] at h1
      exact h1.trans (Nat.div_le_div_right (Nat.sub_le _ _))
    · simp

/-- A scan that forms the full quota of `nG - formed` groups over a remainder
of exactly `gsize * (nG - formed)` golfers must have accepted every chunk: the
groups are sorted `gsize`-chunks of the remainder and their concatenation is a
permutation of it. -/
theorem walkF_partition {nG gsize : ℕ} (hg : 1 ≤ gsize) :
    ∀ fuel formed rem tmp,
      (nG - formed) + rem.length ≤ fuel →
      rem.length = gsize * (nG - formed) →
      ((walkF nG gsize fuel formed rem tmp).1).length = nG - formed →
      ((walkF nG gsize fuel formed rem tmp).1).flatten.Perm rem ∧
        ∀ g ∈ (walkF nG gsize fuel formed rem tmp).1,
          g.length = gsize ∧ List.Sorted (· ≤ ·) g ∧ (rem.Nodup → g.Nodup) := by
  intro fuel
  induction fuel with
  | zero =>
    intro formed rem tmp hfuel hlen _
    have h0 : rem.length = 0 := by omega
    have : rem = [] := List.length_eq_zero.1 h0
    subst this
    simp [walkF]
  | succ fuel ih =>
    intro formed rem tmp hfuel hlen hcount
    rw [walkF_succ] at hcount ⊢
    split_ifs at hcount ⊢ with hcond hc
    · -- accepted chunk
      have hq : nG - formed = (nG - (formed + 1)) + 1 := by omega
      have hlen' : (rem.drop gsize).length = gsize * (nG - (formed + 1)) := by
        rw [List.length_drop, hlen, hq, Nat.mul_add, Nat.mul_one]
        omega
      have hfuel' : (nG - (formed + 1)) + (rem.drop gsize).length ≤ fuel := by
        rw [List.length_drop]
        omega
      simp only [List.length_cons] at hcount
      have hcount' : ((walkF nG gsize fuel (formed + 1) (rem.drop gsize)
          (addPairs (rem.take gsize) tmp)).1).length = nG - (formed + 1) := by omega
      obtain ⟨hperm, hgroups⟩ := ih (formed + 1) (rem.drop gsize) _ hfuel' hlen' hcount'
      constructor
      · simp only [List.flatten_cons]
        have hjoin : ((rem.take gsize).insertionSort (· ≤ ·) ++
            ((walkF nG gsize fuel (formed + 1) (rem.drop gsize)
              (addPairs (rem.take gsize) tmp)).1).flatten).Perm
            (rem.take gsize ++ rem.drop gsize) :=
          (List.perm_insertionSort _ _).append hperm
        rwa [List.take_append_drop] at hjoin
      · intro g hgmem
        rcases List.mem_cons.1 hgmem with rfl | hmem
        · refine ⟨?_, List.sorted_insertionSort _ _, ?_⟩
          · rw [List.length_insertionSort, List.length_take]
            omega
          · intro hnd
            exact ((hnd.sublist (List.take_sublist _ _)).perm
              (List.perm_insertionSort _ _).symm)
        · obtain ⟨h1, h2, h3⟩ := hgroups g hmem
          exact ⟨h1, h2, fun hnd => h3 (hnd.sublist (List.drop_sublist _ _))⟩
    · -- rejected chunk: the quota can no longer be met, contradiction
      exfalso
      have hle := walkF_length_le nG gsize hg fuel formed (rem.drop gsize) tmp
      have hq : nG - formed = (nG - formed - 1) + 1 := by omega
      have hdiv : (rem.drop gsize).length / gsize = nG - formed - 1 := by
        rw [List.length_drop, hlen, hq, Nat.mul_add, Nat.mul_one,
          Nat.add_sub_cancel, Nat.mul_div_cancel_left _ (by omega : 0 < gsize)]
        omega
      omega
    · -- loop guard false: quota already exhausted, remainder empty
      have hzero : (0 : ℕ) = nG - formed := hcount
      have h0 : rem.length = 0 := by rw [hlen, ← hzero, Nat.mul_zero]
      have : rem = [] := List.length_eq_zero.1 h0
      subst this
      simp

/-- A helper: elements of `take` and `drop` of a duplicate-free list are
distinct. -/
theorem not_mem_take_drop {rem : List ℕ} {n : ℕ} {a : ℕ} (hnd : rem.Nodup)
    (h₁ : a ∈ rem.take n) (h₂ : a ∈ rem.drop n) : False := by
  have := hnd
  rw [← List.take_append_drop n rem, List.nodup_append] at this
  exact this.2.2 h₁ h₂

/-- If no pair of the remainder is present in the tentative pair set, every
chunk passes the uniqueness check, so the scan forms its full quota of
groups.  This is the situation of a first round (empty history). -/
theorem walkF_all_fresh {nG gsize : ℕ} (hg : 1 ≤ gsize) :
    ∀ fuel formed rem tmp,
      (nG - formed) + rem.length ≤ fuel →
      rem.length = gsize * (nG - formed) →
      rem.Nodup →
      (∀ a b : ℕ, a ∈ rem → b ∈ rem → pkey a b ∉ tmp) →
      ((walkF nG gsize fuel formed rem tmp).1).length = nG - formed := by
  intro fuel
  induction fuel with
  | zero =>
    intro formed rem tmp hfuel hlen _ _
    simp only [walkF, List.length_nil]
    omega
  | succ fuel ih =>
    intro formed rem tmp hfuel hlen hnd hfresh
    rw [walkF_succ]
    by_cases hlt : formed < nG
    · have hquota : 1 ≤ nG - formed := by omega
      have hgl : gsize ≤ rem.length := by
        rw [hlen]
        calc gsize = gsize * 1 := (Nat.mul_one gsize).symm
          _ ≤ gsize * (nG - formed) := Nat.mul_le_mul_left gsize hquota
      rw [if_pos ⟨hlt, hgl⟩]
      have hcheck : check_pair_uniqueness (rem.take gsize) tmp = true := by
        by_contra hfalse
        obtain ⟨ab, hab, habmem⟩ :=
          check_eq_false_iff.1 (Bool.eq_false_iff.2 hfalse)
        obtain ⟨h1, h2⟩ := mem_combinations2 hab
        exact hfresh ab.1 ab.2 (List.take_subset _ _ h1) (List.take_subset _ _ h2) habmem
      rw [if_pos hcheck]
      have hq : nG - formed = (nG - (formed + 1)) + 1 := by omega
      have hlen' : (rem.drop gsize).length = gsize * (nG - (formed + 1)) := by
        rw [List.length_drop, hlen, hq, Nat.mul_add, Nat.mul_one]
        omega
      have hfuel' : (nG - (formed + 1)) + (rem.drop gsize).length ≤ fuel := by
        rw [List.length_drop]
        omega
      have hnd' : (rem.drop gsize).Nodup := hnd.sublist (List.drop_sublist _ _)
      have hfresh' : ∀ a b : ℕ, a ∈ rem.drop gsize → b ∈ rem.drop gsize →
          pkey a b ∉ addPairs (rem.take gsize) tmp := by
        intro a b ha hb hmem
        rcases mem_addPairs.1 hmem with hold | ⟨cd, hcd, heq⟩
        · exact hfresh a b (List.drop_subset _ _ ha) (List.drop_subset _ _ hb) hold
        · have hcdne : cd.1 ≠ cd.2 :=
            combinations2_ne_of_nodup (hnd.sublist (List.take_sublist _ _)) hcd
          obtain ⟨hc1, hc2⟩ := mem_combinations2 hcd
          rcases pkey_eq_iff.1 heq with ⟨rfl, rfl⟩ | ⟨rfl, rfl⟩
          · exact not_mem_take_drop hnd hc1 ha
          · exact not_mem_take_drop hnd hc2 ha
      have := ih (formed + 1) (rem.drop gsize) (addPairs (rem.take gsize) tmp)
        hfuel' hlen' hnd' hfresh'
      simp only [List.length_cons, this]
      omega
    · rw [if_neg (by omega : ¬(formed < nG ∧ gsize ≤ rem.length))]
      simp only [List.length_nil]
      omega

/-! ### Lemmas about the attempt loop `genLoop` / `generate_weekly_groups` -/

/-- A failed run of the attempt loop leaves the shared pair history exactly
unchanged (each attempt works on a private copy `tmp_pairs`). -/
theorem genLoop_none_hist (sh : ℕ → List ℕ) (nG gsize : ℕ) :
    ∀ fuel attempt past, (genLoop sh nG gsize attempt fuel past).1 = none →
      (genLoop sh nG gsize attempt fuel past).2 = past := by
  intro fuel
  induction fuel with
  | zero => intro attempt past _; rfl
  | succ fuel ih =>
    intro attempt past h
    by_cases hs : (attempt_once nG gsize (sh attempt) past).1.length = nG
    · simp [genLoop, hs] at h
    · simp only [genLoop, if_neg hs] at h ⊢
      exact ih _ _ h

/-- A successful run of the attempt loop returns the groups of some attempt
within the budget, scanned against the unchanged incoming history, and
commits `past ∪ tmp_pairs`. -/
theorem genLoop_some (sh : ℕ → List ℕ) (nG gsize : ℕ) :
    ∀ fuel attempt past gs, (genLoop sh nG gsize attempt fuel past).1 = some gs →
      ∃ i, attempt ≤ i ∧ i < attempt + fuel ∧
        gs = (attempt_once nG gsize (sh i) past).1 ∧
        gs.length = nG ∧
        (genLoop sh nG gsize attempt fuel past).2 =
          past ∪ (attempt_once nG gsize (sh i) past).2 := by
  intro fuel
  induction fuel with
  | zero => intro attempt past gs h; simp [genLoop] at h
  | succ fuel ih =>
    intro attempt past gs h
    by_cases hs : (attempt_once nG gsize (sh attempt) past).1.length = nG
    · simp only [genLoop, if_pos hs, Option.some.injEq] at h
      subst h
      exact ⟨attempt, le_refl _, by omega, rfl, hs, by simp [genLoop, hs]⟩
    · simp only [genLoop, if_neg hs] at h ⊢
      obtain ⟨i, h1, h2, h3, h4, h5⟩ := ih (attempt + 1) past gs h
      exact ⟨i, by omega, by omega, h3, h4, h5⟩

/-- The attempt loop returns `None` exactly when every attempt within the
budget fails to form the full quota of groups. -/
theorem genLoop_none_iff (sh : ℕ → List ℕ) (nG gsize : ℕ) :
    ∀ fuel attempt past, (genLoop sh nG gsize attempt fuel past).1 = none ↔
      ∀ i, attempt ≤ i → i < attempt + fuel →
        (attempt_once nG gsize (sh i) past).1.length ≠ nG := by
  intro fuel
  induction fuel with
  | zero =>
    intro attempt past
    constructor
    · intro _ i h1 h2; omega
    · intro _; rfl
  | succ fuel ih =>
    intro attempt past
    by_cases hs : (attempt_once nG gsize (sh attempt) past).1.length = nG
    · simp only [genLoop, if_pos hs]
      constructor
      · intro h; cases h
      · intro h
        exact absurd hs (h attempt (le_refl _) (by omega))
    · simp only [genLoop, if_neg hs, ih]
      constructor
      · intro h i h1 h2
        rcases Nat.eq_or_lt_of_le h1 with rfl | hlt
        · exact hs
        · exact h i hlt (by omega)
      · intro h i h1 h2
        exact h i (by omega) (by omega)

/-- The attempt loop never consults the random source beyond its attempt
budget. -/
theorem genLoop_congr (nG gsize : ℕ) :
    ∀ fuel (sh sh' : ℕ → List ℕ) attempt past,
      (∀ i, attempt ≤ i → i < attempt + fuel → sh i = sh' i) →
      genLoop sh nG gsize attempt fuel past = genLoop sh' nG gsize attempt fuel past := by
  intro fuel
  induction fuel with
  | zero => intro sh sh' attempt past _; rfl
  | succ fuel ih =>
    intro sh sh' attempt past h
    have h0 : sh attempt = sh' attempt := h attempt (le_refl _) (by omega)
    by_cases hs : (attempt_once nG gsize (sh attempt) past).1.length = nG
    · simp [genLoop, h0] at hs ⊢
      simp [hs]
    · simp only [genLoop, h0] at hs ⊢
      rw [if_neg hs, if_neg hs]
      exact ih sh sh' (attempt + 1) past fun i h1 h2 => h i (by omega) (by omega)

/-- If the first attempt already forms the full quota, the loop returns it at
once. -/
theorem genLoop_first_success (sh : ℕ → List ℕ) (nG gsize fuel attempt : ℕ)
    (past : Finset (ℕ × ℕ))
    (hs : (attempt_once nG gsize (sh attempt) past).1.length = nG) :
    genLoop sh nG gsize attempt (fuel + 1) past =
      (some (attempt_once nG gsize (sh attempt) past).1,
        past ∪ (attempt_once nG gsize (sh attempt) past).2) := by
  simp [genLoop, hs]

/-! ### Well-formedness of rounds and the schedule loop -/

/-- A well-formed round: exactly `len(roster) / gsize` groups, each of
`gsize` distinct members in ascending order, jointly a permutation of the
roster (every participant in exactly one group). -/
def goodRound (roster : List ℕ) (gsize : ℕ) (wk : List (List ℕ)) : Prop :=
  wk.length = roster.length / gsize ∧
  wk.flatten.Perm roster ∧
  ∀ g ∈ wk, g.length = gsize ∧ List.Sorted (· ≤ ·) g ∧ g.Nodup

/-- No unordered pair of distinct participants occurs in two different groups
of the schedule (across all rounds). -/
def NoRepeatedPair (sched : List (List (List ℕ))) : Prop :=
  sched.flatten.Pairwise fun g₁ g₂ => ∀ p, PairInGroup p g₁ → PairInGroup p g₂ → False

/-- A successful `generate_weekly_groups` call on a roster permutation
produces a well-formed round. -/
theorem generate_goodRound {sh : ℕ → List ℕ} {roster : List ℕ} {gsize : ℕ}
    (hnd : roster.Nodup) (hg1 : 1 ≤ gsize) (hdvd : gsize ∣ roster.length)
    (hperm : ∀ a, (sh a).Perm roster) {past : Finset (ℕ × ℕ)} {wk : List (List ℕ)}
    (h : (generate_weekly_groups sh past (roster.length / gsize) gsize).1 = some wk) :
    goodRound roster gsize wk := by
  obtain ⟨i, -, -, hwk, hlen, -⟩ :=
    genLoop_some sh (roster.length / gsize) gsize MAX_ATTEMPTS_PER_WEEK 0 past wk h
  subst hwk
  have hrem : (sh i).length = gsize * (roster.length / gsize) := by
    rw [(hperm i).length_eq, Nat.mul_div_cancel' hdvd]
  have hfuel : (roster.length / gsize - 0) + (sh i).length ≤
      roster.length / gsize + (sh i).length := by omega
  have hlen0 : (sh i).length = gsize * (roster.length / gsize - 0) := by
    simpa using hrem
  obtain ⟨hflat, hgroups⟩ :=
    walkF_partition hg1 (roster.length / gsize + (sh i).length) 0 (sh i) past
      hfuel hlen0 (by simpa using hlen)
  have hndsh : (sh i).Nodup := (hperm i).symm.nodup hnd
  refine ⟨by simpa using hlen, hflat.trans (hperm i), ?_⟩
  intro g hg
  obtain ⟨h1, h2, h3⟩ := hgroups g hg
  exact ⟨h1, h2, h3 hndsh⟩

/-- Loop invariant: all accumulated rounds well-formed ⇒ all rounds of the
final schedule well-formed. -/
theorem scheduleLoop_goodRounds {sh : ℕ → ℕ → List ℕ} {roster : List ℕ} {gsize : ℕ}
    (hnd : roster.Nodup) (hg1 : 1 ≤ gsize) (hdvd : gsize ∣ roster.length)
    (hperm : ∀ w a, (sh w a).Perm roster) (numWeeks : ℕ) :
    ∀ wl weekNum past acc, (∀ wk ∈ acc, goodRound roster gsize wk) →
      ∀ wk ∈ (scheduleLoop sh (roster.length / gsize) gsize numWeeks
        weekNum wl past acc).1, goodRound roster gsize wk := by
  intro wl
  induction wl with
  | zero => intro weekNum past acc hacc; exact hacc
  | succ wl ih =>
    intro weekNum past acc hacc
    cases hgen : (generate_weekly_groups (sh weekNum) past (roster.length / gsize) gsize).1 with
    | none =>
      simp only [scheduleLoop, hgen]
      exact hacc
    | some wk =>
      simp only [scheduleLoop, hgen]
      refine ih (weekNum + 1) _ (acc ++ [wk]) ?_
      intro wk' hwk'
      rcases List.mem_append.1 hwk' with h | h
      · exact hacc wk' h
      · rcases List.mem_singleton.1 h with rfl
        exact generate_goodRound hnd hg1 hdvd (hperm weekNum) hgen

/-- Loop invariant for pairwise uniqueness: if every pair already placed is
recorded in the history and no pair repeats among the accumulated rounds,
then no pair repeats in the final schedule. -/
theorem scheduleLoop_noRepeat (sh : ℕ → ℕ → List ℕ) (nG gsize numWeeks : ℕ) :
    ∀ wl weekNum past acc,
      (∀ g ∈ acc.flatten, ∀ p, PairInGroup p g → p ∈ past) →
      NoRepeatedPair acc →
      NoRepeatedPair (scheduleLoop sh nG gsize numWeeks weekNum wl past acc).1 := by
  intro wl
  induction wl with
  | zero => intro weekNum past acc _ hpw; exact hpw
  | succ wl ih =>
    intro weekNum past acc hhist hpw
    cases hgen : (generate_weekly_groups (sh weekNum) past nG gsize).1 with
    | none =>
      simp only [scheduleLoop, hgen]
      exact hpw
    | some wk =>
      simp only [scheduleLoop, hgen]
      obtain ⟨i, -, -, hwk, -, hpast⟩ :=
        genLoop_some (sh weekNum) nG gsize MAX_ATTEMPTS_PER_WEEK 0 past wk hgen
      have hflat : (acc ++ [wk]).flatten = acc.flatten ++ wk := by simp
      refine ih (weekNum + 1) _ (acc ++ [wk]) ?_ ?_
      · -- history invariant is preserved
        intro g hg p hp
        unfold generate_weekly_groups
        rw [hpast]
        rw [hflat] at hg
        rcases List.mem_append.1 hg with h | h
        · exact Finset.mem_union_left _ (hhist g h p hp)
        · refine Finset.mem_union_right _ ?_
          rw [hwk] at h
          exact walkF_groups_recorded nG gsize _ 0 (sh weekNum i) past g h p hp
      · -- the new round's pairs are disjoint from all earlier ones
        unfold NoRepeatedPair
        rw [hflat, List.pairwise_append]
        refine ⟨hpw, ?_, ?_⟩
        · rw [hwk]
          exact walkF_pairwise nG gsize _ 0 (sh weekNum i) past
        · intro g₁ hg₁ g₂ hg₂ p hp₁ hp₂
          rw [hwk] at hg₂
          exact walkF_groups_fresh nG gsize _ 0 (sh weekNum i) past g₂ hg₂ p hp₂
            (hhist g₁ hg₁ p hp₁)

/-- Loop invariant for partial-failure containment: the loop either completes
all remaining weeks with `Success`, or stops at the first failing week `k`,
returning exactly the rounds accumulated through week `k - 1`. -/
theorem scheduleLoop_outcome (sh : ℕ → ℕ → List ℕ) (nG gsize numWeeks : ℕ) :
    ∀ wl weekNum past acc,
      ((scheduleLoop sh nG gsize numWeeks weekNum wl past acc).2 =
          .success numWeeks ∧
        (scheduleLoop sh nG gsize numWeeks weekNum wl past acc).1.length =
          acc.length + wl) ∨
      ∃ k, weekNum ≤ k ∧ k < weekNum + wl ∧
        (scheduleLoop sh nG gsize numWeeks weekNum wl past acc).2 =
          .partialFailure k MAX_ATTEMPTS_PER_WEEK ∧
        (scheduleLoop sh nG gsize numWeeks weekNum wl past acc).1.length =
          acc.length + (k - weekNum) := by
  intro wl
  induction wl with
  | zero =>
    intro weekNum past acc
    exact Or.inl ⟨rfl, by simp [scheduleLoop]⟩
  | succ wl ih =>
    intro weekNum past acc
    cases hgen : (generate_weekly_groups (sh weekNum) past nG gsize).1 with
    | none =>
      simp only [scheduleLoop, hgen]
      exact Or.inr ⟨weekNum, le_refl _, by omega, rfl, by omega⟩
    | some wk =>
      simp only [scheduleLoop, hgen]
      rcases ih (weekNum + 1)
          (generate_weekly_groups (sh weekNum) past nG gsize).2 (acc ++ [wk]) with
        ⟨h1, h2⟩ | ⟨k, h1, h2, h3, h4⟩
      · left
        refine ⟨h1, ?_⟩
        rw [h2]
        simp
        omega
      · right
        refine ⟨k, by omega, by omega, h3, ?_⟩
        rw [h4]
        simp
        omega

/-- Any `create_schedule` call that returns an actual schedule (rather than
`None`) passed both preconditions, and its result is the week loop's. -/
theorem create_schedule_eq {shuffles : ℕ → ℕ → List ℕ} {roster : List ℕ}
    {numWeeks gsize : ℕ} {sched : List (List (List ℕ))} {out : Outcome}
    (h : create_schedule shuffles roster numWeeks gsize = (some sched, out)) :
    roster ≠ [] ∧ roster.length % gsize = 0 ∧ 1 ≤ gsize ∧
      sched = (scheduleLoop shuffles (roster.length / gsize) gsize numWeeks
        1 numWeeks ∅ []).1 ∧
      out = (scheduleLoop shuffles (roster.length / gsize) gsize numWeeks
        1 numWeeks ∅ []).2 := by
  unfold create_schedule at h
  split_ifs at h with h1 h2
  · simp at h
  · simp at h
  · rw [Prod.mk.injEq, Option.some.injEq] at h
    have hne : roster ≠ [] := by
      intro hnil
      exact absurd (by rw [hnil]; rfl) h1
  -- a nonempty roster passing the divisibility test forces `gsize ≠ 0`
    have hmod : roster.length % gsize = 0 := by omega
    have hg1 : 1 ≤ gsize := by
      rcases Nat.eq_zero_or_pos gsize with rfl | hp
      · rw [Nat.mod_zero] at hmod
        exact absurd (List.length_eq_zero.1 hmod) hne
      · exact hp
    exact ⟨hne, hmod, hg1, h.1.symm, h.2.symm⟩

/-! ### First-attempt success and forced failure -/

theorem walkF_nil (nG gsize : ℕ) (hg : 1 ≤ gsize) :
    ∀ fuel formed tmp, walkF nG gsize fuel formed [] tmp = ([], tmp) := by
  intro fuel formed tmp
  cases fuel with
  | zero => rfl
  | succ fuel =>
    rw [walkF_succ, if_neg]
    rintro ⟨-, hle⟩
    simp at hle
    omega

/-- With a quota of one group over a remainder of exactly one chunk, a single
already-seen pair in the history forces the whole attempt to fail. -/
theorem walkF_stale_one {gsize : ℕ} (hg : 1 ≤ gsize) (rem : List ℕ)
    (tmp : Finset (ℕ × ℕ)) (hlen : rem.length = gsize)
    (hstale : ∃ a b : ℕ, a ∈ rem ∧ b ∈ rem ∧ a ≠ b ∧ pkey a b ∈ tmp) :
    ∀ fuel, ((walkF 1 gsize fuel 0 rem tmp).1).length ≠ 1 := by
  intro fuel
  cases fuel with
  | zero => simp [walkF]
  | succ fuel =>
    rw [walkF_succ, if_pos ⟨Nat.one_pos, le_of_eq hlen.symm⟩]
    have htake : rem.take gsize = rem := List.take_of_length_le (le_of_eq hlen)
    have hcheck : check_pair_uniqueness (rem.take gsize) tmp = false := by
      rw [htake, check_eq_false_iff]
      obtain ⟨a, b, ha, hb, hne, hmem⟩ := hstale
      rcases combinations2_of_mem ha hb hne with hc | hc
      · exact ⟨(a, b), hc, hmem⟩
      · exact ⟨(b, a), hc, pkey_comm a b ▸ hmem⟩
    rw [if_neg (by rw [hcheck]; exact Bool.false_ne_true)]
    have hdrop : rem.drop gsize = [] := List.drop_eq_nil_of_le (le_of_eq hlen)
    rw [hdrop, walkF_nil 1 gsize hg]
    simp

/-- On an empty history a duplicate-free remainder of exactly `nG` chunks is
always fully partitioned (every chunk passes the check). -/
theorem attempt_once_empty_history {nG gsize : ℕ} (hg1 : 1 ≤ gsize)
    {rem : List ℕ} (hndr : rem.Nodup) (hlen : rem.length = gsize * nG) :
    ((attempt_once nG gsize rem ∅).1).length = nG := by
  have h := @walkF_all_fresh nG gsize hg1 (nG + rem.length) 0 rem ∅ (by omega)
    (by simpa using hlen) hndr (fun a b _ _ => Finset.not_mem_empty _)
  simpa using h

/-- If the very first attempt forms the full quota, `generate_weekly_groups`
returns it (and commits the history) at once. -/
theorem generate_first_attempt_success {sh : ℕ → List ℕ} {past : Finset (ℕ × ℕ)}
    {nG gsize : ℕ} (hs : (attempt_once nG gsize (sh 0) past).1.length = nG) :
    generate_weekly_groups sh past nG gsize =
      (some (attempt_once nG gsize (sh 0) past).1,
        past ∪ (attempt_once nG gsize (sh 0) past).2) := by
  unfold generate_weekly_groups
  have h3000 : MAX_ATTEMPTS_PER_WEEK = 2999 + 1 := rfl
  rw [h3000]
  exact genLoop_first_success sh nG gsize 2999 0 past hs

theorem scheduleLoop_step_some {sh : ℕ → ℕ → List ℕ} {nG gsize numWeeks : ℕ}
    {weekNum wl : ℕ} {past : Finset (ℕ × ℕ)} {acc : List (List (List ℕ))}
    {wk : List (List ℕ)} (hwl : 1 ≤ wl)
    (hgen : (generate_weekly_groups (sh weekNum) past nG gsize).1 = some wk) :
    scheduleLoop sh nG gsize numWeeks weekNum wl past acc =
      scheduleLoop sh nG gsize numWeeks (weekNum + 1) (wl - 1)
        (generate_weekly_groups (sh weekNum) past nG gsize).2 (acc ++ [wk]) := by
  obtain ⟨w, rfl⟩ : ∃ w, wl = w + 1 := ⟨wl - 1, by omega⟩
  simp only [scheduleLoop, hgen, Nat.add_sub_cancel]

theorem scheduleLoop_step_none {sh : ℕ → ℕ → List ℕ} {nG gsize numWeeks : ℕ}
    {weekNum wl : ℕ} {past : Finset (ℕ × ℕ)} {acc : List (List (List ℕ))}
    (hwl : 1 ≤ wl)
    (hgen : (generate_weekly_groups (sh weekNum) past nG gsize).1 = none) :
    scheduleLoop sh nG gsize numWeeks weekNum wl past acc =
      (acc, .partialFailure weekNum MAX_ATTEMPTS_PER_WEEK) := by
  obtain ⟨w, rfl⟩ : ∃ w, wl = w + 1 := ⟨wl - 1, by omega⟩
  simp only [scheduleLoop, hgen]

/-! ### Properties of the intended model

The theorems of this section are about the intended-model definitions above
(the module as it would run with `import itertools` present); the staged
module itself raises `NameError` instead, see the staged section below. -/

/-- Intended model: every schedule returned — whether the outcome is
full success or partial failure — consists of well-formed rounds: each round
has exactly `len(roster) / group_size` groups, each group has exactly
`group_size` distinct members in ascending sorted order, and the groups of a
round jointly are a permutation of the roster (no participant omitted or
duplicated). -/
theorem intended_rounds_well_formed (shuffles : ℕ → ℕ → List ℕ) (roster : List ℕ)
    (numWeeks gsize : ℕ) (sched : List (List (List ℕ))) (out : Outcome)
    (hnd : roster.Nodup) (hperm : ∀ w a, (shuffles w a).Perm roster)
    (h : create_schedule shuffles roster numWeeks gsize = (some sched, out)) :
    ∀ wk ∈ sched, wk.length = roster.length / gsize ∧
      wk.flatten.Perm roster ∧
      ∀ g ∈ wk, g.length = gsize ∧ List.Sorted (· ≤ ·) g ∧ g.Nodup := by
  obtain ⟨hne, hmod, hg1, hsched, -⟩ := create_schedule_eq h
  subst hsched
  exact scheduleLoop_goodRounds hnd hg1 (Nat.dvd_of_mod_eq_zero hmod) hperm
    numWeeks numWeeks 1 ∅ [] (by simp)

/-- Intended model: in every schedule returned (including the
partial schedule returned on a round failure), no unordered pair of two
distinct participants occurs together in more than one group across all
rounds. -/
theorem intended_no_repeated_pair (shuffles : ℕ → ℕ → List ℕ) (roster : List ℕ)
    (numWeeks gsize : ℕ) (sched : List (List (List ℕ))) (out : Outcome)
    (h : create_schedule shuffles roster numWeeks gsize = (some sched, out)) :
    NoRepeatedPair sched := by
  obtain ⟨-, -, -, hsched, -⟩ := create_schedule_eq h
  subst hsched
  exact scheduleLoop_noRepeat shuffles (roster.length / gsize) gsize numWeeks
    numWeeks 1 ∅ [] (by simp) List.Pairwise.nil

/-- Intended model: `generate_weekly_groups` mutates the shared pair history only by
adding pairs and only on success: after a `None` (failure) return the
caller's `past_pairs` set is exactly unchanged, and after a successful return
it is a superset of its value before the call. -/
theorem intended_history_mutation (shuffles : ℕ → List ℕ)
    (past : Finset (ℕ × ℕ)) (nG gsize : ℕ) :
    ((generate_weekly_groups shuffles past nG gsize).1 = none →
      (generate_weekly_groups shuffles past nG gsize).2 = past) ∧
    ∀ gs, (generate_weekly_groups shuffles past nG gsize).1 = some gs →
      past ⊆ (generate_weekly_groups shuffles past nG gsize).2 := by
  constructor
  · exact genLoop_none_hist shuffles nG gsize MAX_ATTEMPTS_PER_WEEK 0 past
  · intro gs h
    obtain ⟨i, -, -, -, -, h2⟩ :=
      genLoop_some shuffles nG gsize MAX_ATTEMPTS_PER_WEEK 0 past gs h
    unfold generate_weekly_groups
    rw [h2]
    exact Finset.subset_union_left

/-- C5: `create_schedule` checks its preconditions before any round is
attempted: an empty roster yields the empty-roster error and no rounds, and a
roster size not divisible by the group size yields the indivisibility error —
reporting the actual roster size and group size — and no rounds. -/
theorem claim_C5_preconditions :
    (∀ (shuffles : ℕ → ℕ → List ℕ) (numWeeks gsize : ℕ),
      create_schedule shuffles [] numWeeks gsize = (none, .emptyRoster)) ∧
    ∀ (shuffles : ℕ → ℕ → List ℕ) (roster : List ℕ) (numWeeks gsize : ℕ),
      roster ≠ [] → roster.length % gsize ≠ 0 →
      create_schedule shuffles roster numWeeks gsize =
        (none, .indivisibleRoster roster.length gsize) := by
  constructor
  · intro shuffles numWeeks gsize
    rfl
  · intro shuffles roster numWeeks gsize hne hmod
    have he : roster.isEmpty = false := by
      cases roster with
      | nil => exact absurd rfl hne
      | cons a l => rfl
    unfold create_schedule
    rw [he, if_neg (by simp), if_pos hmod]

/-- Intended model: the returned schedule either completes all requested rounds with the
success outcome, or — when round `k` is the first round whose generation
fails — contains exactly the `k - 1` previously completed rounds together
with a partial-failure outcome naming round `k`. -/
theorem intended_partial_failure_containment (shuffles : ℕ → ℕ → List ℕ)
    (roster : List ℕ) (numWeeks gsize : ℕ) (sched : List (List (List ℕ)))
    (out : Outcome)
    (h : create_schedule shuffles roster numWeeks gsize = (some sched, out)) :
    (out = .success numWeeks ∧ sched.length = numWeeks) ∨
    ∃ k, 1 ≤ k ∧ k ≤ numWeeks ∧ out = .partialFailure k MAX_ATTEMPTS_PER_WEEK ∧
      sched.length = k - 1 := by
  obtain ⟨-, -, -, hsched, hout⟩ := create_schedule_eq h
  subst hsched
  subst hout
  rcases scheduleLoop_outcome shuffles (roster.length / gsize) gsize numWeeks
    numWeeks 1 ∅ [] with ⟨h1, h2⟩ | ⟨k, h1, h2, h3, h4⟩
  · left
    exact ⟨h1, by simpa using h2⟩
  · right
    exact ⟨k, h1, by omega, h3, by simpa using h4⟩

/-- Intended model: for a candidate group of distinct members, `check_pair_uniqueness`
returns `False` exactly when one of the `len * (len - 1) / 2` unordered pairs
of distinct members is already recorded, and recording the group (the
`tmp_pairs.add` loop) inserts exactly those pairs. -/
theorem intended_pair_check_and_record (g : List ℕ) (past : Finset (ℕ × ℕ))
    (hnd : g.Nodup) :
    (check_pair_uniqueness g past = false ↔
      ∃ a ∈ g, ∃ b ∈ g, a ≠ b ∧ pkey a b ∈ past) ∧
    (∀ p, p ∈ addPairs g past ↔
      p ∈ past ∨ ∃ a ∈ g, ∃ b ∈ g, a ≠ b ∧ p = pkey a b) ∧
    (combinations2 g).length = g.length * (g.length - 1) / 2 := by
  refine ⟨?_, ?_, ?_⟩
  · rw [check_eq_false_iff]
    constructor
    · rintro ⟨⟨a, b⟩, hab, hmem⟩
      obtain ⟨ha, hb⟩ := mem_combinations2 hab
      exact ⟨a, ha, b, hb, combinations2_ne_of_nodup hnd hab, hmem⟩
    · rintro ⟨a, ha, b, hb, hne, hmem⟩
      rcases combinations2_of_mem ha hb hne with hc | hc
      · exact ⟨(a, b), hc, hmem⟩
      · exact ⟨(b, a), hc, pkey_comm a b ▸ hmem⟩
  · intro p
    rw [mem_addPairs]
    constructor
    · rintro (h | ⟨⟨a, b⟩, hab, rfl⟩)
      · exact Or.inl h
      · obtain ⟨ha, hb⟩ := mem_combinations2 hab
        exact Or.inr ⟨a, ha, b, hb, combinations2_ne_of_nodup hnd hab, rfl⟩
    · rintro (h | ⟨a, ha, b, hb, hne, rfl⟩)
      · exact Or.inl h
      · rcases combinations2_of_mem ha hb hne with hc | hc
        · exact Or.inr ⟨(a, b), hc, rfl⟩
        · exact Or.inr ⟨(b, a), hc, pkey_comm a b⟩
  · have := length_combinations2 g
    omega

/-- Intended model: the attempt budget is 3000, the retry loop never consults the random
source beyond the budget, and it returns `None` (failure) exactly when no
attempt within the budget forms the required number of groups. -/
theorem intended_attempt_budget (shuffles shuffles' : ℕ → List ℕ)
    (past : Finset (ℕ × ℕ)) (nG gsize : ℕ) :
    MAX_ATTEMPTS_PER_WEEK = 3000 ∧
    ((∀ i < MAX_ATTEMPTS_PER_WEEK, shuffles i = shuffles' i) →
      generate_weekly_groups shuffles past nG gsize =
        generate_weekly_groups shuffles' past nG gsize) ∧
    ((generate_weekly_groups shuffles past nG gsize).1 = none ↔
      ∀ i < MAX_ATTEMPTS_PER_WEEK,
        (attempt_once nG gsize (shuffles i) past).1.length ≠ nG) := by
  refine ⟨rfl, ?_, ?_⟩
  · intro h
    exact genLoop_congr nG gsize MAX_ATTEMPTS_PER_WEEK shuffles shuffles' 0 past
      fun i h1 h2 => h i (by omega)
  · rw [generate_weekly_groups, genLoop_none_iff]
    constructor
    · intro h i hi
      exact h i (by omega) (by omega)
    · intro h i h1 h2
      exact h i (by omega)

/-- Intended model: for a non-empty duplicate-free roster whose size is a multiple of
the group size and at least one requested round, the first round can never
fail: against the empty initial history the very first attempt already forms
the full quota of groups, so the schedule contains at least one round and the
outcome is never a round-exhaustion failure at round 1. -/
theorem intended_first_round_never_fails (shuffles : ℕ → ℕ → List ℕ)
    (roster : List ℕ) (numWeeks gsize : ℕ) (sched : List (List (List ℕ)))
    (out : Outcome) (hnd : roster.Nodup) (hw : 1 ≤ numWeeks)
    (hperm : ∀ w a, (shuffles w a).Perm roster)
    (h : create_schedule shuffles roster numWeeks gsize = (some sched, out)) :
    ((attempt_once (roster.length / gsize) gsize (shuffles 1 0) ∅).1).length =
      roster.length / gsize ∧
    1 ≤ sched.length ∧
    ∀ a, out ≠ .partialFailure 1 a := by
  obtain ⟨hne, hmod, hg1, hsched, hout⟩ := create_schedule_eq h
  have hdvd : gsize ∣ roster.length := Nat.dvd_of_mod_eq_zero hmod
  have hmul : gsize * (roster.length / gsize) = roster.length :=
    Nat.mul_div_cancel' hdvd
  have hfirst : ((attempt_once (roster.length / gsize) gsize (shuffles 1 0) ∅).1).length =
      roster.length / gsize :=
    attempt_once_empty_history hg1 ((hperm 1 0).symm.nodup hnd)
      (by rw [(hperm 1 0).length_eq, hmul])
  refine ⟨hfirst, ?_⟩
  have hgen := generate_first_attempt_success hfirst
  have hgen1 : (generate_weekly_groups (shuffles 1) ∅ (roster.length / gsize) gsize).1 =
      some (attempt_once (roster.length / gsize) gsize (shuffles 1 0) ∅).1 := by
    rw [hgen]
  rw [scheduleLoop_step_some hw hgen1] at hsched hout
  rcases scheduleLoop_outcome shuffles (roster.length / gsize) gsize numWeeks
      (numWeeks - 1) 2
      (generate_weekly_groups (shuffles 1) ∅ (roster.length / gsize) gsize).2
      ([] ++ [(attempt_once (roster.length / gsize) gsize (shuffles 1 0) ∅).1]) with
    ⟨h1, h2⟩ | ⟨k, h1, h2, h3, h4⟩
  · constructor
    · rw [hsched, h2]
      simp
    · intro a
      rw [hout, h1]
      intro hcontra
      cases hcontra
  · constructor
    · rw [hsched, h4]
      simp
    · intro a
      rw [hout, h3]
      intro hcontra
      rw [Outcome.partialFailure.injEq] at hcontra
      omega

/-- Intended model: with a roster of exactly 4 distinct participants, group size 4 and 3
requested rounds, `create_schedule` deterministically — for every outcome of
the random shuffles — returns a schedule of exactly 1 round together with a
partial-failure outcome naming round 2. -/
theorem intended_four_players_deterministic_failure (shuffles : ℕ → ℕ → List ℕ)
    (roster : List ℕ) (hnd : roster.Nodup) (hlen : roster.length = 4)
    (hperm : ∀ w a, (shuffles w a).Perm roster) :
    ∃ wk, create_schedule shuffles roster 3 4 =
      (some [wk], .partialFailure 2 MAX_ATTEMPTS_PER_WEEK) := by
  have hg1 : (1 : ℕ) ≤ 4 := by omega
  have hne : roster ≠ [] := by
    intro hnil
    rw [hnil] at hlen
    simp at hlen
  -- week 1 succeeds on its very first attempt
  have hlen10 : (shuffles 1 0).length = 4 * 1 := by
    rw [(hperm 1 0).length_eq, hlen]
  have hfirst : ((attempt_once 1 4 (shuffles 1 0) ∅).1).length = 1 :=
    attempt_once_empty_history hg1 ((hperm 1 0).symm.nodup hnd) hlen10
  have hgen := generate_first_attempt_success hfirst
  have hgen1 : (generate_weekly_groups (shuffles 1) ∅ 1 4).1 =
      some (attempt_once 1 4 (shuffles 1 0) ∅).1 := by rw [hgen]
  -- the single accepted group of week 1 is (a permutation of) the roster
  obtain ⟨g, hgeq⟩ := List.length_eq_one.1 hfirst
  have hfuel : (1 - 0) + (shuffles 1 0).length ≤ 1 + (shuffles 1 0).length := by omega
  obtain ⟨hflat, -⟩ := @walkF_partition 1 4 hg1 (1 + (shuffles 1 0).length) 0
    (shuffles 1 0) ∅ hfuel (by simpa using hlen10) (by simpa using hfirst)
  have hgperm : g.Perm roster := by
    have hwf : ((attempt_once 1 4 (shuffles 1 0) ∅).1).flatten.Perm (shuffles 1 0) := hflat
    rw [hgeq] at hwf
    simp only [List.flatten_cons, List.flatten_nil, List.append_nil] at hwf
    exact hwf.trans (hperm 1 0)
  -- after week 1 every unordered pair of distinct participants is recorded
  have hpairs : ∀ a b : ℕ, a ∈ roster → b ∈ roster → a ≠ b →
      pkey a b ∈ (generate_weekly_groups (shuffles 1) ∅ 1 4).2 := by
    intro a b ha hb hab
    have hmemg : g ∈ ((attempt_once 1 4 (shuffles 1 0) ∅).1) := by
      rw [hgeq]
      exact List.mem_singleton_self g
    have hrec : pkey a b ∈ (attempt_once 1 4 (shuffles 1 0) ∅).2 :=
      walkF_groups_recorded 1 4 (1 + (shuffles 1 0).length) 0 (shuffles 1 0) ∅
        g hmemg (pkey a b)
        ⟨a, b, hgperm.mem_iff.2 ha, hgperm.mem_iff.2 hb, hab, rfl⟩
    rw [hgen]
    exact Finset.mem_union_right _ hrec
  -- the roster has two distinct participants
  obtain ⟨x, y, hx, hy, hxy⟩ : ∃ x y : ℕ, x ∈ roster ∧ y ∈ roster ∧ x ≠ y := by
    cases roster with
    | nil => simp at hlen
    | cons a tl =>
      cases tl with
      | nil => simp at hlen
      | cons b tl2 =>
        refine ⟨a, b, List.mem_cons_self a _,
          List.mem_cons_of_mem _ (List.mem_cons_self b _), ?_⟩
        intro hab
        exact (List.nodup_cons.1 hnd).1 (hab ▸ List.mem_cons_self b tl2)
  -- week 2 fails on every attempt
  have hgen2 : (generate_weekly_groups (shuffles 2)
      (generate_weekly_groups (shuffles 1) ∅ 1 4).2 1 4).1 = none := by
    rw [generate_weekly_groups, genLoop_none_iff]
    intro i _ _
    exact walkF_stale_one hg1 (shuffles 2 i) _
      (by rw [(hperm 2 i).length_eq, hlen])
      ⟨x, y, (hperm 2 i).mem_iff.2 hx, (hperm 2 i).mem_iff.2 hy, hxy,
        hpairs x y hx hy hxy⟩
      (1 + (shuffles 2 i).length)
  -- assemble the run of `create_schedule`
  refine ⟨(attempt_once 1 4 (shuffles 1 0) ∅).1, ?_⟩
  have he : roster.isEmpty = false := by
    cases roster with
    | nil => exact absurd rfl hne
    | cons a l => rfl
  have hnG : roster.length / 4 = 1 := by rw [hlen]
  have hmod : ¬(roster.length % 4 ≠ 0) := by rw [hlen]; omega
  unfold create_schedule
  rw [he, if_neg (by simp), if_neg hmod, hnG]
  show (some (scheduleLoop shuffles 1 4 3 1 3 ∅ []).1,
      (scheduleLoop shuffles 1 4 3 1 3 ∅ []).2) =
    (some [(attempt_once 1 4 (shuffles 1 0) ∅).1],
      Outcome.partialFailure 2 MAX_ATTEMPTS_PER_WEEK)
  rw [scheduleLoop_step_some (by omega) hgen1,
    scheduleLoop_step_none (by omega) hgen2]
  simp

/-! ### The result formatter `format_schedule_to_dataframe`

A DataFrame row `{'Week': w, 'Group': g, 'Player 1': …, 'Player k': …}` is
modelled as a record; the `""` placeholder of an unused player slot is
`none`. -/

structure Row where
  week : ℕ
  group : ℕ
  players : List (Option ℕ)
deriving DecidableEq, Repr

/-- One output row: `Player i` slots hold the group's members in order,
topped up to `group_size` slots with the empty placeholder (the
`for i in range(len(group_names), group_size)` loop). -/
def rowFor (weekNum groupNum gsize : ℕ) (names : List ℕ) : Row :=
  ⟨weekNum, groupNum, names.map some ++ List.replicate (gsize - names.length) none⟩

/-- The `for group_idx, group_names in enumerate(weekly_groups)` loop. -/
def groupRows (weekNum gsize : ℕ) : ℕ → List (List ℕ) → List Row
  | _, [] => []
  | gi, names :: rest => rowFor weekNum (gi + 1) gsize names :: groupRows weekNum gsize (gi + 1) rest

/-- The `for week_idx, weekly_groups in enumerate(schedule)` loop. -/
def weekRowsAux (gsize : ℕ) : ℕ → List (List (List ℕ)) → List Row
  | _, [] => []
  | wi, wk :: rest => groupRows (wi + 1) gsize 0 wk ++ weekRowsAux gsize (wi + 1) rest

/-- The final reindexing step: every row is topped up with empty placeholders
to the common column count. -/
def padRow (numCols : ℕ) (r : Row) : Row :=
  ⟨r.week, r.group, r.players ++ List.replicate (numCols - r.players.length) none⟩

/-- `format_schedule_to_dataframe(schedule, group_size)`: build one row per
group (rounds in order, groups in order within a round), then normalize all
rows to `max(max player column, group_size)` player columns. -/
def format_schedule_to_dataframe (schedule : List (List (List ℕ))) (gsize : ℕ) :
    List Row :=
  let rows := weekRowsAux gsize 0 schedule
  let maxPlayerNum := (rows.map fun r => r.players.length).foldr max 0
  let numCols := max maxPlayerNum gsize
  rows.map (padRow numCols)

/-- Read one group back off a row: the members are the non-placeholder
player slots in order. -/
def unformatRow (r : Row) : List ℕ := r.players.filterMap id

/-- Reassemble a schedule from a table: week numbers run 1 .. max week
number; the groups of a week are its rows in order. -/
def unformat (rows : List Row) : List (List (List ℕ)) :=
  let maxW := (rows.map Row.week).foldr max 0
  (List.range maxW).map fun w =>
    (rows.filter fun r => r.week == w + 1).map unformatRow

/-- A well-formed schedule for the formatter: every round is non-empty and
every group has exactly `gsize` members. -/
def WFSched (gsize : ℕ) (s : List (List (List ℕ))) : Prop :=
  ∀ wk ∈ s, wk ≠ [] ∧ ∀ g ∈ wk, g.length = gsize

/-! ### Formatter lemmas -/

theorem foldr_max_le {l : List ℕ} {b : ℕ} (h : ∀ x ∈ l, x ≤ b) :
    l.foldr max 0 ≤ b := by
  induction l with
  | nil => exact Nat.zero_le b
  | cons a rest ih =>
    simp only [List.foldr_cons]
    exact max_le (h a (List.mem_cons_self a rest))
      (ih fun x hx => h x (List.mem_cons_of_mem a hx))

theorem le_foldr_max {l : List ℕ} {x : ℕ} (h : x ∈ l) : x ≤ l.foldr max 0 := by
  induction l with
  | nil => simp at h
  | cons a rest ih =>
    simp only [List.foldr_cons]
    rcases List.mem_cons.1 h with rfl | h'
    · exact le_max_left _ _
    · exact le_trans (ih h') (le_max_right _ _)

theorem rowFor_players_length (weekNum groupNum gsize : ℕ) (names : List ℕ) :
    (rowFor weekNum groupNum gsize names).players.length = max names.length gsize := by
  simp only [rowFor, List.length_append, List.length_map, List.length_replicate]
  omega

theorem groupRows_week {weekNum gsize : ℕ} :
    ∀ gi wk r, r ∈ groupRows weekNum gsize gi wk → r.week = weekNum := by
  intro gi wk
  induction wk generalizing gi with
  | nil => intro r hr; simp [groupRows] at hr
  | cons names rest ih =>
    intro r hr
    rcases List.mem_cons.1 hr with rfl | hr'
    · rfl
    · exact ih (gi + 1) r hr'

theorem groupRows_length (weekNum gsize : ℕ) :
    ∀ gi wk, (groupRows weekNum gsize gi wk).length = wk.length := by
  intro gi wk
  induction wk generalizing gi with
  | nil => rfl
  | cons names rest ih => simp [groupRows, ih (gi + 1)]

theorem groupRows_players_length {weekNum gsize : ℕ} :
    ∀ gi wk, (∀ g ∈ wk, g.length = gsize) →
      ∀ r ∈ groupRows weekNum gsize gi wk, r.players.length = gsize := by
  intro gi wk
  induction wk generalizing gi with
  | nil => intro _ r hr; simp [groupRows] at hr
  | cons names rest ih =>
    intro hlen r hr
    rcases List.mem_cons.1 hr with rfl | hr'
    · rw [rowFor_players_length, hlen names (List.mem_cons_self _ _)]
      exact Nat.max_self gsize
    · exact ih (gi + 1) (fun g hg => hlen g (List.mem_cons_of_mem _ hg)) r hr'

theorem weekRowsAux_week_bounds {gsize : ℕ} :
    ∀ s wi r, r ∈ weekRowsAux gsize wi s →
      wi + 1 ≤ r.week ∧ r.week ≤ wi + s.length := by
  intro s
  induction s with
  | nil => intro wi r hr; simp [weekRowsAux] at hr
  | cons wk rest ih =>
    intro wi r hr
    rcases List.mem_append.1 hr with h | h
    · rw [groupRows_week 0 wk r h]
      simp
    · have := ih (wi + 1) r h
      constructor <;> [omega; skip]
      simp only [List.length_cons]
      omega

theorem weekRowsAux_players_length {gsize : ℕ} :
    ∀ s wi, (∀ wk ∈ s, ∀ g ∈ wk, g.length = gsize) →
      ∀ r ∈ weekRowsAux gsize wi s, r.players.length = gsize := by
  intro s
  induction s with
  | nil => intro wi _ r hr; simp [weekRowsAux] at hr
  | cons wk rest ih =>
    intro wi hlen r hr
    rcases List.mem_append.1 hr with h | h
    · exact groupRows_players_length 0 wk (hlen wk (List.mem_cons_self _ _)) r h
    · exact ih (wi + 1) (fun wk' hwk' => hlen wk' (List.mem_cons_of_mem _ hwk')) r h

theorem weekRowsAux_length {gsize : ℕ} :
    ∀ s wi, (weekRowsAux gsize wi s).length = (s.map List.length).sum := by
  intro s
  induction s with
  | nil => intro wi; rfl
  | cons wk rest ih =>
    intro wi
    simp [weekRowsAux, groupRows_length, ih (wi + 1)]

/-- On a well-formed schedule every row already has exactly `gsize` player
slots, so the final column-normalization pass of
`format_schedule_to_dataframe` changes nothing. -/
theorem format_eq_weekRows {gsize : ℕ} {s : List (List (List ℕ))}
    (hwf : WFSched gsize s) :
    format_schedule_to_dataframe s gsize = weekRowsAux gsize 0 s := by
  unfold format_schedule_to_dataframe
  have hlen : ∀ r ∈ weekRowsAux gsize 0 s, r.players.length = gsize :=
    weekRowsAux_players_length s 0 fun wk hwk => (hwf wk hwk).2
  have hfold : ((weekRowsAux gsize 0 s).map fun r => r.players.length).foldr max 0 ≤ gsize := by
    apply foldr_max_le
    intro x hx
    obtain ⟨r, hr, rfl⟩ := List.mem_map.1 hx
    exact le_of_eq (hlen r hr)
  have hcols : max (((weekRowsAux gsize 0 s).map fun r => r.players.length).foldr max 0) gsize
      = gsize := max_eq_right hfold
  show (weekRowsAux gsize 0 s).map
      (padRow (max (((weekRowsAux gsize 0 s).map fun r => r.players.length).foldr max 0) gsize))
    = weekRowsAux gsize 0 s
  rw [hcols]
  have hid : ∀ r ∈ weekRowsAux gsize 0 s, padRow gsize r = r := by
    intro r hr
    unfold padRow
    rw [hlen r hr, Nat.sub_self, List.replicate_zero, List.append_nil]
  calc (weekRowsAux gsize 0 s).map (padRow gsize)
      = (weekRowsAux gsize 0 s).map id := List.map_congr_left hid
    _ = weekRowsAux gsize 0 s := List.map_id _

theorem unformatRow_rowFor (w g gsize : ℕ) (names : List ℕ) :
    unformatRow (rowFor w g gsize names) = names := by
  simp [unformatRow, rowFor, List.filterMap_append]

theorem map_unformatRow_groupRows (v gsize : ℕ) :
    ∀ gi wk, (groupRows v gsize gi wk).map unformatRow = wk := by
  intro gi wk
  induction wk generalizing gi with
  | nil => rfl
  | cons names rest ih => simp [groupRows, unformatRow_rowFor, ih (gi + 1)]

theorem weekRowsAux_last_week {gsize : ℕ} :
    ∀ s wi, (∀ wk ∈ s, wk ≠ []) → s ≠ [] →
      ∃ r ∈ weekRowsAux gsize wi s, r.week = wi + s.length := by
  intro s
  induction s with
  | nil => intro wi _ hne; exact absurd rfl hne
  | cons wk rest ih =>
    intro wi hne _
    cases hrest : rest with
    | nil =>
      subst hrest
      have hwk : wk ≠ [] := hne wk (List.mem_cons_self _ _)
      cases wk with
      | nil => exact absurd rfl hwk
      | cons names tl =>
        refine ⟨rowFor (wi + 1) 1 gsize names, ?_, by simp; rfl⟩
        exact List.mem_append_left _ (List.mem_cons_self _ _)
    | cons wk2 rest2 =>
      subst hrest
      obtain ⟨r, hr, hweek⟩ := ih (wi + 1)
        (fun wk' hwk' => hne wk' (List.mem_cons_of_mem _ hwk')) (by simp)
      refine ⟨r, List.mem_append_right _ hr, ?_⟩
      rw [hweek]
      simp
      omega

theorem weekRowsAux_maxW {gsize : ℕ} {s : List (List (List ℕ))}
    (hwf : ∀ wk ∈ s, wk ≠ []) :
    ((weekRowsAux gsize 0 s).map Row.week).foldr max 0 = s.length := by
  cases hs : s with
  | nil => rfl
  | cons wk rest =>
    rw [← hs]
    apply le_antisymm
    · apply foldr_max_le
      intro x hx
      obtain ⟨r, hr, rfl⟩ := List.mem_map.1 hx
      have := weekRowsAux_week_bounds s 0 r hr
      omega
    · obtain ⟨r, hr, hweek⟩ :=
        weekRowsAux_last_week s 0 hwf (by rw [hs]; simp)
      have : r.week ∈ (weekRowsAux gsize 0 s).map Row.week :=
        List.mem_map.2 ⟨r, hr, rfl⟩
      have hle := le_foldr_max this
      omega

theorem weekRowsAux_filter {gsize : ℕ} :
    ∀ (s : List (List (List ℕ))) wi j (hj : j < s.length),
      (weekRowsAux gsize wi s).filter (fun r => r.week == wi + (j + 1)) =
        groupRows (wi + (j + 1)) gsize 0 (s.get ⟨j, hj⟩) := by
  intro s
  induction s with
  | nil => intro wi j hj; simp at hj
  | cons wk rest ih =>
    intro wi j hj
    cases j with
    | zero =>
      simp only [weekRowsAux, List.filter_append]
      have h1 : List.filter (fun r => r.week == wi + (0 + 1))
          (groupRows (wi + 1) gsize 0 wk) = groupRows (wi + 1) gsize 0 wk := by
        apply List.filter_eq_self.2
        intro r hr
        rw [groupRows_week 0 wk r hr]
        simp
      have h2 : List.filter (fun r => r.week == wi + (0 + 1))
          (weekRowsAux gsize (wi + 1) rest) = [] := by
        apply List.filter_eq_nil_iff.2
        intro r hr
        have := weekRowsAux_week_bounds rest (wi + 1) r hr
        simp only [beq_iff_eq]
        omega
      rw [h1, h2, List.append_nil]
      rfl
    | succ j' =>
      simp only [weekRowsAux, List.filter_append]
      have h1 : List.filter (fun r => r.week == wi + (j' + 1 + 1))
          (groupRows (wi + 1) gsize 0 wk) = [] := by
        apply List.filter_eq_nil_iff.2
        intro r hr
        rw [groupRows_week 0 wk r hr]
        simp only [beq_iff_eq]
        omega
      have heq : wi + (j' + 1 + 1) = (wi + 1) + (j' + 1) := by omega
      rw [h1, List.nil_append, heq, ih (wi + 1) j' (by simpa using hj)]
      rfl

/-- `unformat` is a left inverse of the formatter on well-formed schedules:
no information is lost and row order determines the schedule. -/
theorem unformat_format {gsize : ℕ} {s : List (List (List ℕ))}
    (hwf : WFSched gsize s) :
    unformat (format_schedule_to_dataframe s gsize) = s := by
  rw [format_eq_weekRows hwf]
  unfold unformat
  rw [weekRowsAux_maxW fun wk hwk => (hwf wk hwk).1]
  show (List.range s.length).map
      (fun w => ((weekRowsAux gsize 0 s).filter fun r => r.week == w + 1).map unformatRow)
    = s
  apply List.ext_get (by simp)
  intro i h1 h2
  have hi : i < s.length := by simpa using h1
  have hfilter : (weekRowsAux gsize 0 s).filter (fun r => r.week == i + 1) =
      groupRows (i + 1) gsize 0 (s.get ⟨i, hi⟩) := by
    have h := @weekRowsAux_filter gsize s 0 i hi
    simpa using h
  simp only [List.get_map, List.get_range, hfilter, map_unformatRow_groupRows]

theorem groupRows_group_numbers (v gsize : ℕ) :
    ∀ gi wk, (groupRows v gsize gi wk).map Row.group =
      (List.range wk.length).map fun i => gi + i + 1 := by
  intro gi wk
  induction wk generalizing gi with
  | nil => rfl
  | cons names rest ih =>
    simp only [groupRows, List.map_cons, List.length_cons,
      List.range_succ_eq_map, List.map_map]
    refine congrArg₂ _ (by simp [rowFor]) ?_
    rw [ih (gi + 1)]
    apply List.map_congr_left
    intro i _
    simp [Function.comp]
    omega

theorem weekRowsAux_weeks_sorted {gsize : ℕ} :
    ∀ (s : List (List (List ℕ))) wi,
      ((weekRowsAux gsize wi s).map Row.week).Sorted (· ≤ ·) := by
  intro s
  induction s with
  | nil => intro wi; simp [weekRowsAux]
  | cons wk rest ih =>
    intro wi
    simp only [weekRowsAux, List.map_append]
    rw [List.Sorted, List.pairwise_append]
    refine ⟨?_, ih (wi + 1), ?_⟩
    · apply List.pairwise_of_forall_mem_list
      intro a ha b hb
      obtain ⟨r, hr, rfl⟩ := List.mem_map.1 ha
      obtain ⟨r', hr', rfl⟩ := List.mem_map.1 hb
      rw [groupRows_week 0 wk r hr, groupRows_week 0 wk r' hr']
    · intro a ha b hb
      obtain ⟨r, hr, rfl⟩ := List.mem_map.1 ha
      obtain ⟨r', hr', rfl⟩ := List.mem_map.1 hb
      rw [groupRows_week 0 wk r hr]
      have := weekRowsAux_week_bounds rest (wi + 1) r' hr'
      omega

/-- C9: the formatter is a deterministic, lossless, order-preserving map: an
empty schedule yields an empty table; two applications to the same schedule
agree (the function is pure); on well-formed schedules the two-pass
column normalization equals the plain one-row-per-group enumeration, the
table has exactly one row per group, the original schedule is recovered from
the table (losslessness), the `Week` column is ascending, and within each
week the `Group` column is `1, 2, …` in order. -/
theorem claim_C9_formatter_lossless (gsize : ℕ) :
    format_schedule_to_dataframe [] gsize = [] ∧
    (∀ s : List (List (List ℕ)),
      format_schedule_to_dataframe s gsize = format_schedule_to_dataframe s gsize) ∧
    (∀ s, WFSched gsize s →
      format_schedule_to_dataframe s gsize = weekRowsAux gsize 0 s) ∧
    (∀ s, WFSched gsize s →
      (format_schedule_to_dataframe s gsize).length = (s.map List.length).sum) ∧
    (∀ s, WFSched gsize s → unformat (format_schedule_to_dataframe s gsize) = s) ∧
    (∀ s, WFSched gsize s →
      ((format_schedule_to_dataframe s gsize).map Row.week).Sorted (· ≤ ·)) ∧
    (∀ s, WFSched gsize s → ∀ j (hj : j < s.length),
      ((format_schedule_to_dataframe s gsize).filter fun r => r.week == j + 1).map
          Row.group =
        (List.range (s.get ⟨j, hj⟩).length).map (· + 1)) := by
  refine ⟨rfl, fun s => rfl, fun s h => format_eq_weekRows h, ?_, ?_, ?_, ?_⟩
  · intro s h
    rw [format_eq_weekRows h, weekRowsAux_length]
  · intro s h
    exact unformat_format h
  · intro s h
    rw [format_eq_weekRows h]
    exact weekRowsAux_weeks_sorted s 0
  · intro s h j hj
    rw [format_eq_weekRows h]
    have hfilter := @weekRowsAux_filter gsize s 0 j hj
    simp only [Nat.zero_add] at hfilter
    rw [hfilter, groupRows_group_numbers]
    apply List.map_congr_left
    intro i _
    omega

/-! ### Concrete instantiations -/

/-- The intended-model round property at a concrete 4-player input. -/
theorem intended_rounds_well_formed_example :
    ([[0, 1, 2, 3]] : List (List ℕ)).flatten.Perm [0, 1, 2, 3] :=
  (intended_rounds_well_formed (fun _ _ => [0, 1, 2, 3]) [0, 1, 2, 3] 1 4
    [[[0, 1, 2, 3]]] (.success 1) (by decide) (fun _ _ => List.Perm.refl _)
    (by decide) [[0, 1, 2, 3]] (by decide)).2.1

/-- The intended-model pairwise invariant at a concrete 4-player input. -/
theorem intended_no_repeated_pair_example : NoRepeatedPair [[[0, 1, 2, 3]]] :=
  intended_no_repeated_pair (fun _ _ => [0, 1, 2, 3]) [0, 1, 2, 3] 1 4
    [[[0, 1, 2, 3]]] (.success 1) (by decide)

/-- The intended-model forced failure at the concrete roster `[0, 1, 2, 3]` with the identity
shuffle oracle. -/
theorem intended_four_players_example :
    (create_schedule (fun _ _ => [0, 1, 2, 3]) [0, 1, 2, 3] 3 4).2 =
      .partialFailure 2 MAX_ATTEMPTS_PER_WEEK := by
  obtain ⟨wk, hwk⟩ := intended_four_players_deterministic_failure
    (fun _ _ => [0, 1, 2, 3]) [0, 1, 2, 3] (by decide) (by decide)
    (fun _ _ => List.Perm.refl _)
  rw [hwk]

/-- Intended model: a successful call's history keeps the incoming pairs. -/
theorem intended_history_mutation_example :
    pkey 5 6 ∈ (generate_weekly_groups (fun _ => [0, 1, 2, 3]) {pkey 5 6} 1 4).2 :=
  (intended_history_mutation (fun _ => [0, 1, 2, 3]) {pkey 5 6} 1 4).2
    [[0, 1, 2, 3]] (by decide) (Finset.mem_singleton_self _)

/-- Witness for C5 at a 1-player roster with group size 4. -/
theorem claim_C5_witness :
    create_schedule (fun _ _ => []) [0] 5 4 = (none, .indivisibleRoster 1 4) :=
  claim_C5_preconditions.2 (fun _ _ => []) [0] 5 4 (by decide) (by decide)

/-- The intended-model containment property at a concrete 4-player input. -/
theorem intended_partial_failure_example : ([[[0, 1, 2, 3]]] : List (List (List ℕ))).length = 1 := by
  rcases intended_partial_failure_containment (fun _ _ => [0, 1, 2, 3])
      [0, 1, 2, 3] 1 4 [[[0, 1, 2, 3]]] (.success 1) (by decide) with
    ⟨-, h⟩ | ⟨k, -, -, hcontra, -⟩
  · exact h
  · simp at hcontra

/-- The intended-model pair bookkeeping at the group `[1, 2, 3]`. -/
theorem intended_pair_check_example :
    (combinations2 [1, 2, 3]).length =
      ([1, 2, 3] : List ℕ).length * (([1, 2, 3] : List ℕ).length - 1) / 2 :=
  (intended_pair_check_and_record [1, 2, 3] ∅ (by decide)).2.2

/-- Intended model: two equal oracles give equal results. -/
theorem intended_attempt_budget_example :
    generate_weekly_groups (fun _ => [0, 1, 2, 3]) ∅ 1 4 =
      generate_weekly_groups (fun _ => [0, 1, 2, 3]) ∅ 1 4 :=
  (intended_attempt_budget (fun _ => [0, 1, 2, 3]) (fun _ => [0, 1, 2, 3]) ∅ 1 4).2.1
    (fun _ _ => rfl)

/-- Witness for C9: lossless round trip on a concrete two-group schedule. -/
theorem claim_C9_witness :
    unformat (format_schedule_to_dataframe [[[0, 1], [2, 3]]] 2) =
      [[[0, 1], [2, 3]]] :=
  (claim_C9_formatter_lossless 2).2.2.2.2.1 [[[0, 1], [2, 3]]]
    (by unfold WFSched; decide)

/-- The intended-model first-round property at a concrete 4-player input. -/
theorem intended_first_round_example :
    ((attempt_once 1 4 [0, 1, 2, 3] ∅).1).length = 1 ∧
    1 ≤ ([[[0, 1, 2, 3]]] : List (List (List ℕ))).length :=
  have h := intended_first_round_never_fails (fun _ _ => [0, 1, 2, 3])
    [0, 1, 2, 3] 1 4 [[[0, 1, 2, 3]]] (.success 1) (by decide) (by decide)
    (fun _ _ => List.Perm.refl _) (by decide)
  ⟨h.1, h.2.1⟩

/-! ### The staged module: `itertools` is never imported

`golf_scheduler.py` imports `streamlit`, `pandas`, `random`, `io` and
`pathlib.Path` (lines 6–10) and nothing else, yet lines 25 and 51 evaluate
`itertools.combinations`.  In Python, evaluating the `for` statement's
iterable begins with the resolution of the name `itertools`, which raises
`NameError` because the name is unbound — before any pair is examined or
recorded.  The definitions of this section embed the module exactly as
staged: exceptions are `Except.error` values and propagate along the
Python control flow. -/

/-- Python runtime errors arising in the staged module. -/
inductive PyError where
  | nameError (n : String)
deriving DecidableEq, Repr

/-- The module's import list (`golf_scheduler.py` lines 6–10).  `itertools`
is absent. -/
def importedModules : List String :=
  ["streamlit", "pandas", "random", "io", "pathlib"]

/-- Module-level name resolution: an unbound module name raises
`NameError`. -/
def lookupModule (n : String) : Except PyError Unit :=
  if n ∈ importedModules then .ok () else .error (.nameError n)

/-- `check_pair_uniqueness` as staged: the
`for a, b in itertools.combinations(group, 2)` statement first evaluates its
iterable, which begins by resolving the name `itertools`; only if that
succeeded would the loop compute the boolean of the intended model. -/
def check_pair_uniquenessE (group : List ℕ) (past_pairs : Finset (ℕ × ℕ)) :
    Except PyError Bool :=
  match lookupModule "itertools" with
  | .error e => .error e
  | .ok _ => .ok (check_pair_uniqueness group past_pairs)

/-- The pair-recording loop (line 51) as staged: it likewise begins by
resolving `itertools`. -/
def addPairsE (group : List ℕ) (pairs : Finset (ℕ × ℕ)) :
    Except PyError (Finset (ℕ × ℕ)) :=
  match lookupModule "itertools" with
  | .error e => .error e
  | .ok _ => .ok (addPairs group pairs)

/-- The inner chunk loop as staged: same control flow as `walkF`, with every
exception propagated outward. -/
def walkFE (nG gsize : ℕ) : ℕ → ℕ → List ℕ → Finset (ℕ × ℕ) →
    Except PyError (List (List ℕ) × Finset (ℕ × ℕ))
  | 0, _, _, tmp => .ok ([], tmp)
  | fuel + 1, formed, rem, tmp =>
    if formed < nG ∧ gsize ≤ rem.length then
      match check_pair_uniquenessE (rem.take gsize) tmp with
      | .error e => .error e
      | .ok true =>
        match addPairsE (rem.take gsize) tmp with
        | .error e => .error e
        | .ok tmp' =>
          match walkFE nG gsize fuel (formed + 1) (rem.drop gsize) tmp' with
          | .error e => .error e
          | .ok res =>
            .ok ((rem.take gsize).insertionSort (· ≤ ·) :: res.1, res.2)
      | .ok false => walkFE nG gsize fuel formed (rem.drop gsize) tmp
    else .ok ([], tmp)

/-- One staged attempt of `generate_weekly_groups`. -/
def attempt_onceE (nG gsize : ℕ) (rem : List ℕ) (past : Finset (ℕ × ℕ)) :
    Except PyError (List (List ℕ) × Finset (ℕ × ℕ)) :=
  walkFE nG gsize (nG + rem.length) 0 rem past

/-- The staged retry loop of `generate_weekly_groups`. -/
def genLoopE (shuffles : ℕ → List ℕ) (nG gsize : ℕ) :
    ℕ → ℕ → Finset (ℕ × ℕ) →
    Except PyError (Option (List (List ℕ)) × Finset (ℕ × ℕ))
  | _, 0, past => .ok (none, past)
  | attempt, fuel + 1, past =>
    match attempt_onceE nG gsize (shuffles attempt) past with
    | .error e => .error e
    | .ok res =>
      if res.1.length = nG then .ok (some res.1, past ∪ res.2)
      else genLoopE shuffles nG gsize (attempt + 1) fuel past

/-- `generate_weekly_groups` as staged. -/
def generate_weekly_groupsE (shuffles : ℕ → List ℕ) (past : Finset (ℕ × ℕ))
    (nG gsize : ℕ) :
    Except PyError (Option (List (List ℕ)) × Finset (ℕ × ℕ)) :=
  genLoopE shuffles nG gsize 0 MAX_ATTEMPTS_PER_WEEK past

/-- The staged week loop of `create_schedule`. -/
def scheduleLoopE (shuffles : ℕ → ℕ → List ℕ) (nG gsize numWeeks : ℕ) :
    ℕ → ℕ → Finset (ℕ × ℕ) → List (List (List ℕ)) →
    Except PyError (List (List (List ℕ)) × Outcome)
  | _, 0, _, acc => .ok (acc, .success numWeeks)
  | weekNum, weeksLeft + 1, past, acc =>
    match generate_weekly_groupsE (shuffles weekNum) past nG gsize with
    | .error e => .error e
    | .ok res =>
      match res.1 with
      | none => .ok (acc, .partialFailure weekNum MAX_ATTEMPTS_PER_WEEK)
      | some wk =>
        scheduleLoopE shuffles nG gsize numWeeks (weekNum + 1) weeksLeft
          res.2 (acc ++ [wk])

/-- `create_schedule` as staged: the precondition branches return normally
(they never touch `itertools`); the generation branch propagates the week
loop's exception. -/
def create_scheduleE (shuffles : ℕ → ℕ → List ℕ) (golfer_list : List ℕ)
    (num_weeks gsize : ℕ) :
    Except PyError (Option (List (List (List ℕ))) × Outcome) :=
  if golfer_list.isEmpty then .ok (none, .emptyRoster)
  else if golfer_list.length % gsize ≠ 0 then
    .ok (none, .indivisibleRoster golfer_list.length gsize)
  else
    match scheduleLoopE shuffles (golfer_list.length / gsize) gsize num_weeks
        1 num_weeks ∅ [] with
    | .error e => .error e
    | .ok res => .ok (some res.1, res.2)

/-! ### Staged behavior lemmas -/

theorem lookupModule_itertools :
    lookupModule "itertools" = .error (.nameError "itertools") := by
  unfold lookupModule
  rw [if_neg (by decide)]

theorem check_pair_uniquenessE_eq (group : List ℕ) (past : Finset (ℕ × ℕ)) :
    check_pair_uniquenessE group past = .error (.nameError "itertools") := by
  unfold check_pair_uniquenessE
  rw [lookupModule_itertools]

theorem addPairsE_eq (group : List ℕ) (pairs : Finset (ℕ × ℕ)) :
    addPairsE group pairs = .error (.nameError "itertools") := by
  unfold addPairsE
  rw [lookupModule_itertools]

/-- As soon as the chunk loop examines one candidate, the staged module
raises. -/
theorem walkFE_raises {nG gsize : ℕ} (fuel formed : ℕ) (rem : List ℕ)
    (tmp : Finset (ℕ × ℕ)) (hg : formed < nG ∧ gsize ≤ rem.length)
    (hf : 1 ≤ fuel) :
    walkFE nG gsize fuel formed rem tmp = .error (.nameError "itertools") := by
  obtain ⟨f, rfl⟩ : ∃ f, fuel = f + 1 := ⟨fuel - 1, by omega⟩
  simp only [walkFE, if_pos hg, check_pair_uniquenessE_eq]

/-- The only normal returns of the staged chunk loop are the ones that never
looked at a candidate: no group formed, tentative pair set untouched. -/
theorem walkFE_ok_eq {nG gsize : ℕ} (fuel formed : ℕ) (rem : List ℕ)
    (tmp : Finset (ℕ × ℕ)) {gs : List (List ℕ)} {tmp' : Finset (ℕ × ℕ)}
    (h : walkFE nG gsize fuel formed rem tmp = .ok (gs, tmp')) :
    gs = [] ∧ tmp' = tmp := by
  cases fuel with
  | zero =>
    simp only [walkFE, Except.ok.injEq, Prod.mk.injEq] at h
    exact ⟨h.1.symm, h.2.symm⟩
  | succ f =>
    by_cases hg : formed < nG ∧ gsize ≤ rem.length
    · simp only [walkFE, if_pos hg, check_pair_uniquenessE_eq] at h
      exact absurd h (by simp)
    · simp only [walkFE, if_neg hg, Except.ok.injEq, Prod.mk.injEq] at h
      exact ⟨h.1.symm, h.2.symm⟩

theorem walkFE_guard_false {nG gsize : ℕ} (fuel formed : ℕ) (rem : List ℕ)
    (tmp : Finset (ℕ × ℕ)) (hg : ¬(formed < nG ∧ gsize ≤ rem.length)) :
    walkFE nG gsize fuel formed rem tmp = .ok ([], tmp) := by
  cases fuel with
  | zero => rfl
  | succ f => simp only [walkFE, if_neg hg]

theorem attempt_onceE_raises {nG gsize : ℕ} (rem : List ℕ)
    (past : Finset (ℕ × ℕ)) (h1 : 1 ≤ nG) (h2 : gsize ≤ rem.length) :
    attempt_onceE nG gsize rem past = .error (.nameError "itertools") :=
  walkFE_raises (nG + rem.length) 0 rem past ⟨by omega, h2⟩ (by omega)

theorem attempt_onceE_quota_zero {gsize : ℕ} (rem : List ℕ)
    (past : Finset (ℕ × ℕ)) :
    attempt_onceE 0 gsize rem past = .ok ([], past) :=
  walkFE_guard_false (0 + rem.length) 0 rem past (by omega)

/-- With a quota of zero groups the staged retry loop succeeds on its first
attempt with the empty round, committing `past ∪ tmp_pairs`. -/
theorem genLoopE_quota_zero (sh : ℕ → List ℕ) (gsize attempt f : ℕ)
    (past : Finset (ℕ × ℕ)) :
    genLoopE sh 0 gsize attempt (f + 1) past = .ok (some [], past ∪ past) := by
  simp only [genLoopE]
  rw [@attempt_onceE_quota_zero gsize (sh attempt) past]
  simp

/-- With a positive quota and a shuffled copy long enough for one chunk, the
staged retry loop raises during its first attempt. -/
theorem genLoopE_raises {sh : ℕ → List ℕ} {nG gsize : ℕ} (attempt fuel : ℕ)
    (past : Finset (ℕ × ℕ)) (h1 : 1 ≤ nG) (h2 : gsize ≤ (sh attempt).length)
    (hf : 1 ≤ fuel) :
    genLoopE sh nG gsize attempt fuel past = .error (.nameError "itertools") := by
  obtain ⟨f, rfl⟩ : ∃ f, fuel = f + 1 := ⟨fuel - 1, by omega⟩
  simp only [genLoopE, attempt_onceE_raises (sh attempt) past h1 h2]

/-- With a positive quota, a normal return of the staged retry loop is the
`None` of attempt exhaustion, with the shared history untouched. -/
theorem genLoopE_ok_none {sh : ℕ → List ℕ} {nG gsize : ℕ} (h1 : 1 ≤ nG) :
    ∀ fuel attempt past res, genLoopE sh nG gsize attempt fuel past = .ok res →
      res.1 = none ∧ res.2 = past := by
  intro fuel
  induction fuel with
  | zero =>
    intro attempt past res h
    injection h with h'
    subst h'
    exact ⟨rfl, rfl⟩
  | succ f ih =>
    intro attempt past res h
    simp only [genLoopE] at h
    cases hA : attempt_onceE nG gsize (sh attempt) past with
    | error e => rw [hA] at h; simp at h
    | ok p =>
      obtain ⟨gs, tmp'⟩ := p
      obtain ⟨hgs, htmp⟩ := walkFE_ok_eq _ _ _ _ hA
      subst hgs
      rw [hA] at h
      simp only [List.length_nil] at h
      rw [if_neg (by omega)] at h
      exact ih (attempt + 1) past res h

theorem generate_weekly_groupsE_raises {sh : ℕ → List ℕ} {nG gsize : ℕ}
    (past : Finset (ℕ × ℕ)) (h1 : 1 ≤ nG) (h2 : gsize ≤ (sh 0).length) :
    generate_weekly_groupsE sh past nG gsize = .error (.nameError "itertools") :=
  genLoopE_raises 0 MAX_ATTEMPTS_PER_WEEK past h1 h2 (by decide)

theorem generate_weekly_groupsE_ok {sh : ℕ → List ℕ} {nG gsize : ℕ}
    {past : Finset (ℕ × ℕ)} {res} (h1 : 1 ≤ nG)
    (h : generate_weekly_groupsE sh past nG gsize = .ok res) :
    res.1 = none ∧ res.2 = past :=
  genLoopE_ok_none h1 MAX_ATTEMPTS_PER_WEEK 0 past res h

/-- With a positive quota, a normal return of the staged week loop happens at
the zero-week boundary or at a first-week exhaustion; either way the
accumulated schedule is returned unchanged. -/
theorem scheduleLoopE_ok {sh : ℕ → ℕ → List ℕ} {nG gsize numWeeks : ℕ}
    (h1 : 1 ≤ nG) (wl weekNum : ℕ) (past : Finset (ℕ × ℕ))
    (acc : List (List (List ℕ))) {res}
    (h : scheduleLoopE sh nG gsize numWeeks weekNum wl past acc = .ok res) :
    res.1 = acc ∧ (res.2 = .success numWeeks ∨
      res.2 = .partialFailure weekNum MAX_ATTEMPTS_PER_WEEK) := by
  cases wl with
  | zero =>
    injection h with h'
    subst h'
    exact ⟨rfl, Or.inl rfl⟩
  | succ w =>
    simp only [scheduleLoopE] at h
    cases hG : generate_weekly_groupsE (sh weekNum) past nG gsize with
    | error e => rw [hG] at h; simp at h
    | ok r =>
      obtain ⟨r1, r2⟩ := r
      obtain ⟨hr1, -⟩ := generate_weekly_groupsE_ok h1 hG
      simp only at hr1
      subst hr1
      rw [hG] at h
      injection h with h'
      subst h'
      exact ⟨rfl, Or.inr rfl⟩

/-- Once the staged week loop has at least one week to generate, it raises
inside that week's first attempt (provided the week's quota is positive and
the shuffled roster copy holds at least one chunk). -/
theorem scheduleLoopE_week_raises {sh : ℕ → ℕ → List ℕ} {nG gsize : ℕ}
    (numWeeks weekNum wl : ℕ) (past : Finset (ℕ × ℕ))
    (acc : List (List (List ℕ))) (h1 : 1 ≤ nG)
    (h2 : gsize ≤ (sh weekNum 0).length) (hwl : 1 ≤ wl) :
    scheduleLoopE sh nG gsize numWeeks weekNum wl past acc =
      .error (.nameError "itertools") := by
  obtain ⟨w, rfl⟩ : ∃ w, wl = w + 1 := ⟨wl - 1, by omega⟩
  have hgen : generate_weekly_groupsE (sh weekNum) past nG gsize =
      .error (.nameError "itertools") :=
    generate_weekly_groupsE_raises past h1 h2
  simp only [scheduleLoopE, hgen]

/-- On every input that passes both preconditions and requests at least one
round, the staged `create_schedule` raises `NameError` during round 1. -/
theorem create_scheduleE_raises {sh : ℕ → ℕ → List ℕ} {roster : List ℕ}
    {numWeeks gsize : ℕ} (hne : roster ≠ [])
    (hmod : roster.length % gsize = 0) (hw : 1 ≤ numWeeks)
    (hsh : (sh 1 0).length = roster.length) :
    create_scheduleE sh roster numWeeks gsize = .error (.nameError "itertools") := by
  have he : roster.isEmpty = false := by
    cases roster with
    | nil => exact absurd rfl hne
    | cons a l => rfl
  have hl1 : 1 ≤ roster.length := List.length_pos.2 hne
  have hg1 : 1 ≤ gsize := by
    rcases Nat.eq_zero_or_pos gsize with rfl | hp
    · rw [Nat.mod_zero] at hmod
      omega
    · exact hp
  have hgle : gsize ≤ roster.length :=
    Nat.le_of_dvd hl1 (Nat.dvd_of_mod_eq_zero hmod)
  have hnG : 1 ≤ roster.length / gsize := Nat.div_pos hgle hg1
  unfold create_scheduleE
  rw [he, if_neg (by simp), if_neg (by omega),
    scheduleLoopE_week_raises numWeeks 1 numWeeks ∅ [] hnG
      (by rw [hsh]; exact hgle) hw]

/-- The staged precondition branches agree with the intended model (they
execute before anything references `itertools`). -/
theorem create_scheduleE_preconditions (sh : ℕ → ℕ → List ℕ)
    (roster : List ℕ) (numWeeks gsize : ℕ) :
    (roster = [] →
      create_scheduleE sh roster numWeeks gsize = .ok (none, .emptyRoster)) ∧
    (roster ≠ [] → roster.length % gsize ≠ 0 →
      create_scheduleE sh roster numWeeks gsize =
        .ok (none, .indivisibleRoster roster.length gsize)) := by
  constructor
  · rintro rfl
    rfl
  · intro hne hmod
    have he : roster.isEmpty = false := by
      cases roster with
      | nil => exact absurd rfl hne
      | cons a l => rfl
    unfold create_scheduleE
    rw [he, if_neg (by simp), if_pos hmod]

/-! ### Claim theorems over the staged module -/

/-- C1 (code bug): the staged `create_schedule` can never return the
schedules the claim quantifies over.  On every input that passes both
preconditions and requests at least one round — the only inputs on which a
round could be produced — it raises `NameError: name 'itertools' is not
defined` during round 1's first candidate check instead of returning, so no
schedule containing a round ever exists.  (The claim's round-shape invariant
is proved of the intended model as `intended_rounds_well_formed`.) -/
theorem claim_C1_generation_raises_nameError (shuffles : ℕ → ℕ → List ℕ)
    (roster : List ℕ) (numWeeks gsize : ℕ) (hne : roster ≠ [])
    (hmod : roster.length % gsize = 0) (hw : 1 ≤ numWeeks)
    (hperm : ∀ w a, (shuffles w a).Perm roster) :
    create_scheduleE shuffles roster numWeeks gsize =
      .error (.nameError "itertools") :=
  create_scheduleE_raises hne hmod hw (hperm 1 0).length_eq

/-- C2 (code bug): the staged program never places a single group — any
schedule it actually returns is the empty schedule (zero requested rounds),
so the pairwise-uniqueness invariant holds only vacuously; the enforcing
check raises `NameError` before any pair could be compared.  (The invariant
itself is proved of the intended model as `intended_no_repeated_pair`.) -/
theorem claim_C2_returned_schedules_have_no_groups (shuffles : ℕ → ℕ → List ℕ)
    (roster : List ℕ) (numWeeks gsize : ℕ) (l : List (List (List ℕ)))
    (out : Outcome)
    (h : create_scheduleE shuffles roster numWeeks gsize = .ok (some l, out)) :
    l = [] := by
  unfold create_scheduleE at h
  split_ifs at h with h1 h2
  · simp at h
  · simp at h
  · have hne : roster ≠ [] := by
      intro hnil
      exact absurd (by rw [hnil]; rfl) h1
    have hmod : roster.length % gsize = 0 := by omega
    have hl1 : 1 ≤ roster.length := List.length_pos.2 hne
    have hg1 : 1 ≤ gsize := by
      rcases Nat.eq_zero_or_pos gsize with rfl | hp
      · rw [Nat.mod_zero] at hmod
        omega
      · exact hp
    have hnG : 1 ≤ roster.length / gsize :=
      Nat.div_pos (Nat.le_of_dvd hl1 (Nat.dvd_of_mod_eq_zero hmod)) hg1
    cases hs : scheduleLoopE shuffles (roster.length / gsize) gsize numWeeks
        1 numWeeks ∅ [] with
    | error e => rw [hs] at h; simp at h
    | ok res =>
      rw [hs] at h
      simp only [Except.ok.injEq, Prod.mk.injEq, Option.some.injEq] at h
      obtain ⟨hacc, -⟩ := scheduleLoopE_ok hnG numWeeks 1 ∅ [] hs
      rw [← h.1]
      exact hacc

/-- C3 (code bug): the spec's concrete scenario — 4 participants, group size
4, 3 rounds — does not end with one round and a partial failure at round 2:
the staged code raises `NameError` during week 1, for every shuffle outcome.
(The claimed behavior is proved of the intended model as
`intended_four_players_deterministic_failure`.) -/
theorem claim_C3_scenario_raises_nameError (shuffles : ℕ → ℕ → List ℕ)
    (roster : List ℕ) (hlen : roster.length = 4)
    (hperm : ∀ w a, (shuffles w a).Perm roster) :
    create_scheduleE shuffles roster 3 4 = .error (.nameError "itertools") :=
  create_scheduleE_raises
    (by intro hnil; rw [hnil] at hlen; simp at hlen)
    (by rw [hlen]) (by omega) (hperm 1 0).length_eq

/-- C4 (confirmed on the staged module): `generate_weekly_groups` mutates the
shared pair history only by adding pairs and only on success.  The staged
function's actual return paths are: `None` after exhausting the attempt
budget (no chunk ever fit), which leaves `past_pairs` exactly unchanged, and
the quota-zero round, which commits `past ∪ tmp_pairs` — a superset.  Every
other run raises before reaching the single mutation site. -/
theorem claim_C4_staged_history_mutation (shuffles : ℕ → List ℕ)
    (past : Finset (ℕ × ℕ)) (nG gsize : ℕ)
    (res : Option (List (List ℕ)) × Finset (ℕ × ℕ))
    (h : generate_weekly_groupsE shuffles past nG gsize = .ok res) :
    (res.1 = none → res.2 = past) ∧
    ∀ gs, res.1 = some gs → past ⊆ res.2 := by
  rcases Nat.eq_zero_or_pos nG with rfl | h1
  · have hMAX : MAX_ATTEMPTS_PER_WEEK = 2999 + 1 := rfl
    unfold generate_weekly_groupsE at h
    rw [hMAX, genLoopE_quota_zero shuffles gsize 0 2999 past] at h
    injection h with h'
    subst h'
    constructor
    · intro hcontra
      exact absurd hcontra (by simp)
    · intro gs _
      exact Finset.subset_union_left
  · obtain ⟨hnone, hpast⟩ := generate_weekly_groupsE_ok h1 h
    refine ⟨fun _ => hpast, ?_⟩
    intro gs hsome
    rw [hnone] at hsome
    simp at hsome

/-- C6 (code bug): the week loop never reaches a partitioner `Failure` — on
every generating input it raises `NameError` inside round 1 — so the staged
`create_schedule` never returns the `PartialFailure` outcome with its `k-1`
completed rounds; its only normal outcomes are the two precondition errors
and the zero-round success.  (The containment property is proved of the
intended model as `intended_partial_failure_containment`.) -/
theorem claim_C6_partial_failure_never_produced (shuffles : ℕ → ℕ → List ℕ)
    (roster : List ℕ) (numWeeks gsize : ℕ)
    (sched : Option (List (List (List ℕ)))) (out : Outcome)
    (hperm : ∀ w a, (shuffles w a).Perm roster)
    (h : create_scheduleE shuffles roster numWeeks gsize = .ok (sched, out)) :
    out = .emptyRoster ∨ out = .indivisibleRoster roster.length gsize ∨
      out = .success numWeeks := by
  unfold create_scheduleE at h
  split_ifs at h with h1 h2
  · simp only [Except.ok.injEq, Prod.mk.injEq] at h
    exact Or.inl h.2.symm
  · simp only [Except.ok.injEq, Prod.mk.injEq] at h
    exact Or.inr (Or.inl h.2.symm)
  · have hne : roster ≠ [] := by
      intro hnil
      exact absurd (by rw [hnil]; rfl) h1
    have hmod : roster.length % gsize = 0 := by omega
    cases hw : numWeeks with
    | zero =>
      subst hw
      simp only [scheduleLoopE, Except.ok.injEq, Prod.mk.injEq] at h
      exact Or.inr (Or.inr h.2.symm)
    | succ w =>
      exfalso
      subst hw
      have hl1 : 1 ≤ roster.length := List.length_pos.2 hne
      have hg1 : 1 ≤ gsize := by
        rcases Nat.eq_zero_or_pos gsize with rfl | hp
        · rw [Nat.mod_zero] at hmod
          omega
        · exact hp
      have hgle : gsize ≤ roster.length :=
        Nat.le_of_dvd hl1 (Nat.dvd_of_mod_eq_zero hmod)
      have hnG : 1 ≤ roster.length / gsize := Nat.div_pos hgle hg1
      rw [scheduleLoopE_week_raises (w + 1) 1 (w + 1) ∅ [] hnG
        (by rw [(hperm 1 0).length_eq]; exact hgle) (by omega)] at h
      simp at h

/-- C7 (code bug): `check_pair_uniqueness` never returns `True` or `False`,
and the recording loop never inserts a pair: both begin by resolving the
never-imported name `itertools` and raise `NameError` on every call.  (The
claimed boolean/insertion behavior is proved of the intended model as
`intended_pair_check_and_record`.) -/
theorem claim_C7_check_raises_nameError (group : List ℕ)
    (past : Finset (ℕ × ℕ)) :
    check_pair_uniquenessE group past = .error (.nameError "itertools") ∧
    addPairsE group past = .error (.nameError "itertools") :=
  ⟨check_pair_uniquenessE_eq group past, addPairsE_eq group past⟩

/-- C8 (code bug): whenever the quota is positive and the shuffled copy holds
at least one chunk — every case in which the retry loop has work to do — the
staged loop raises `NameError` during attempt 1: it neither performs further
attempts nor returns `None` there.  (The budget behavior is proved of the
intended model as `intended_attempt_budget`.) -/
theorem claim_C8_retry_loop_raises_nameError (shuffles : ℕ → List ℕ)
    (past : Finset (ℕ × ℕ)) (nG gsize : ℕ) (h1 : 1 ≤ nG)
    (h2 : gsize ≤ (shuffles 0).length) :
    generate_weekly_groupsE shuffles past nG gsize =
      .error (.nameError "itertools") :=
  generate_weekly_groupsE_raises past h1 h2

/-- C10 (code bug): the very first attempt of round 1 does not succeed — no
candidate chunk ever "passes" the check against the empty history, because
examining the first chunk already raises `NameError`.  (First-attempt success
is proved of the intended model as `intended_first_round_never_fails`.) -/
theorem claim_C10_first_attempt_raises_nameError (nG gsize : ℕ)
    (rem : List ℕ) (past : Finset (ℕ × ℕ)) (h1 : 1 ≤ nG)
    (h2 : gsize ≤ rem.length) :
    attempt_onceE nG gsize rem past = .error (.nameError "itertools") :=
  attempt_onceE_raises rem past h1 h2

/-! ### Witnesses over the staged module -/

/-- Witness for C1: a 4-player roster, one requested round. -/
theorem claim_C1_witness :
    create_scheduleE (fun _ _ => [0, 1, 2, 3]) [0, 1, 2, 3] 1 4 =
      .error (.nameError "itertools") :=
  claim_C1_generation_raises_nameError (fun _ _ => [0, 1, 2, 3]) [0, 1, 2, 3]
    1 4 (by decide) (by decide) (by decide) (fun _ _ => List.Perm.refl _)

/-- Witness for C2: the zero-round run, the staged module's only
schedule-returning run on a valid roster. -/
theorem claim_C2_witness : ([] : List (List (List ℕ))) = [] :=
  claim_C2_returned_schedules_have_no_groups (fun _ _ => [0, 1, 2, 3])
    [0, 1, 2, 3] 0 4 [] (.success 0) (by rfl)

/-- Witness for C3: the spec's concrete scenario. -/
theorem claim_C3_witness :
    create_scheduleE (fun _ _ => [0, 1, 2, 3]) [0, 1, 2, 3] 3 4 =
      .error (.nameError "itertools") :=
  claim_C3_scenario_raises_nameError (fun _ _ => [0, 1, 2, 3]) [0, 1, 2, 3]
    (by decide) (fun _ _ => List.Perm.refl _)

/-- Witness for C4: the quota-zero success path keeps the incoming pairs. -/
theorem claim_C4_witness :
    pkey 5 6 ∈ ({pkey 5 6} : Finset (ℕ × ℕ)) ∪ {pkey 5 6} :=
  ((claim_C4_staged_history_mutation (fun _ => []) {pkey 5 6} 0 4
      (some [], {pkey 5 6} ∪ {pkey 5 6}) (by rfl)).2 [] rfl)
    (Finset.mem_singleton_self _)

/-- Witness for C6: the zero-round run's outcome. -/
theorem claim_C6_witness :
    Outcome.success 0 = .emptyRoster ∨
    Outcome.success 0 = .indivisibleRoster 4 4 ∨
    Outcome.success 0 = .success 0 :=
  claim_C6_partial_failure_never_produced (fun _ _ => [0, 1, 2, 3])
    [0, 1, 2, 3] 0 4 (some []) (.success 0) (fun _ _ => List.Perm.refl _)
    (by rfl)

/-- Witness for C8: quota 1, one full chunk available. -/
theorem claim_C8_witness :
    generate_weekly_groupsE (fun _ => [0, 1, 2, 3]) ∅ 1 4 =
      .error (.nameError "itertools") :=
  claim_C8_retry_loop_raises_nameError (fun _ => [0, 1, 2, 3]) ∅ 1 4
    (by decide) (by decide)

/-- Witness for C10: round 1's first attempt at a 4-player chunk against the
empty history. -/
theorem claim_C10_witness :
    attempt_onceE 1 4 [0, 1, 2, 3] ∅ = .error (.nameError "itertools") :=
  claim_C10_first_attempt_raises_nameError 1 4 [0, 1, 2, 3] ∅
    (by decide) (by decide)

end GolfScheduler
